import Mathlib

/-!
Shallow embedding of the incremental document-indexing pipelines of the
rag-service repository.

Two sibling pipelines are modeled, side by side, exactly as the source has
them:

* `rag-ingest/ingest.py` — MD5-content-hash change detection against a SQLite
  table, stem-priority file scan (docx beats pdf), a fixed sliding-window
  chunker `chunk_text`, per-chunk embedding where a failed chunk is skipped,
  and a single upsert per file followed by an unconditional state commit.

* `rag-indexer/upload.py` (with `rag-indexer/config.py`) — mtime change
  detection against a JSON state file, no stem priority, delete-before-
  everything `process_document`, fail-closed embedding batches, batched
  upload, and commit-on-success state bookkeeping in `main`.

External libraries and services (hashlib.md5, uuid.uuid4, the qdrant client,
the embedding HTTP service, python-docx/pypdf extraction, the langchain text
splitter, MS Word COM conversion) enter the model as explicit oracle
parameters of the functions that call them; all control flow around those
calls is translated statement by statement from the source.
-/

namespace RagService

/-- Payload values appearing in qdrant point payloads: strings and ints. -/
inductive PVal where
  | s (v : String)
  | n (v : Nat)
deriving DecidableEq

/-- A qdrant point as assembled by the two pipelines: a point id (uuid4 in the
source, modeled as a value drawn from an injective id supply), the embedding
vector, and the payload dictionary as a key/value list. -/
structure PointStruct where
  id : Nat
  vector : List Int
  payload : List (String × PVal)
deriving DecidableEq

/-- Keys of a payload dictionary. -/
def payloadKeys (p : List (String × PVal)) : List String := p.map Prod.fst

/-- Value stored under the key source_file of a point payload, if any. -/
def pointSource (pt : PointStruct) : Option PVal := pt.payload.lookup "source_file"

/-- Points of a store whose payload names the given source file
(the set qdrant's delete-by-filter and the per-document invariants range
over). -/
def docPointsOf (store : List PointStruct) (fname : String) : List PointStruct :=
  store.filter (fun pt => pointSource pt == some (PVal.s fname))

/-- Ceiling division, the iteration count of Python loops of the shape
`for i in range(0, n, b)` and of the `chunk_text` while loop. -/
def ceilDiv (n b : Nat) : Nat := (n + b - 1) / b

/-- Python's `not text.strip()` test: true iff the text has no
non-whitespace character. -/
def isBlank (text : String) : Bool := text.data.all Char.isWhitespace

/-- Python's `filename.startswith('~')` applied to a basename. -/
def startsWithTilde (s : String) : Bool :=
  match s.data with
  | [] => false
  | c :: _ => c == '~'

/-- Functional update of a string-keyed map, modeling Python dict assignment
(`m[k] = v`) and deletion (`m.pop(k, None)`, with `v = none`). -/
def upd (m : String → Option Nat) (k : String) (v : Option Nat) : String → Option Nat :=
  fun x => if x = k then v else m x

namespace Ingest

/-- ingest.py line 36. -/
def CHUNK_SIZE : Nat := 1000

/-- ingest.py line 37. -/
def CHUNK_OVERLAP : Nat := 100

/-- Fuel-indexed model of the while loop of `chunk_text` (ingest.py lines
160-167):

    chunks = []; start = 0
    while start < len(text):
        end = start + size
        chunks.append(text[start:end])
        start += (size - overlap)

One fuel unit is spent per loop iteration; `none` means the loop is still
running when the fuel runs out. The source loop diverges exactly when no
amount of fuel yields `some`. Text is a character list; `text[start:end]`
is `(text.drop start).take size`. `start += (size - overlap)` uses the
truncated subtraction, which agrees with Python for `overlap ≤ size` and in
particular on the stationary divergent case `overlap = size`. -/
def chunk_text_loop (size overlap : Nat) (text : List α) : Nat → Nat → Option (List (List α))
  | 0, start => if start < text.length then none else some []
  | fuel + 1, start =>
    if start < text.length then
      match chunk_text_loop size overlap text fuel (start + (size - overlap)) with
      | none => none
      | some rest => some ((text.drop start).take size :: rest)
    else some []

/-- ingest.py `chunk_text(text, size, overlap)` run with fuel
`text.length + 1`, which suffices for every terminating configuration
(shown in the chunker theorems); `none` reports divergence. -/
def chunk_text (size overlap : Nat) (text : List α) : Option (List (List α)) :=
  chunk_text_loop size overlap text (text.length + 1) 0

/-- Closed form of the chunk list the loop produces when it terminates:
chunk k is the slice starting at `k * (size - overlap)` of length at most
`size`, and there are `ceil (length / (size - overlap))` chunks. -/
def chunkSpec (size overlap : Nat) (text : List α) : List (List α) :=
  (List.range (ceilDiv text.length (size - overlap))).map
    (fun k => (text.drop (k * (size - overlap))).take size)

/-- The `chunk_text` while loop terminates on the given input. -/
def ChunkTextTerminates (size overlap : Nat) (text : List α) : Prop :=
  ∃ fuel, (chunk_text_loop size overlap text fuel 0).isSome

/-- A file as seen by the ingest scan: full path, basename (`path.name`),
`path.stem`, lowercased suffix, byte content and mtime. Path-string parsing
is delegated to these descriptor fields. -/
structure IngFile where
  path : String
  base : String
  stem : String
  ext : String
  content : List Nat
  mtime : Nat
deriving DecidableEq

/-- ingest.py lines 49-54: `get_file_hash` reads the file's bytes and feeds
only them to hashlib.md5; the digest function itself is the oracle `md5`.
The mtime never enters the digest. -/
def get_file_hash (md5 : List Nat → String) (f : IngFile) : String := md5 f.content

/-- ingest.py lines 201-206: the skip decision of `process_docs` — skip iff
the SELECTed row exists and equals the current content hash. -/
def skipsUnchanged (md5 : List Nat → String) (state : String → Option String)
    (f : IngFile) : Bool :=
  match state f.path with
  | some h => h == get_file_hash md5 f
  | none => false

/-- The per-stem slot dictionary built by the scan (ingest.py lines 177-184):
`files_map[stem]` holds at most one docx path and one pdf path. -/
structure Variants where
  docx : Option IngFile
  pdf : Option IngFile
deriving DecidableEq

/-- Assignment `files_map.setdefault(stem, {})[kind] = path` for one file:
a docx file fills (or overwrites) the docx slot, a pdf file the pdf slot. -/
def setVariant (v : Variants) (f : IngFile) : Variants :=
  if f.ext == ".docx" then ⟨some f, v.pdf⟩ else ⟨v.docx, some f⟩

/-- Update-or-append on the stem-keyed association list (Python dicts keep
insertion order and key uniqueness). -/
def insertVariant : List (String × Variants) → IngFile → List (String × Variants)
  | [], f => [(f.stem, setVariant ⟨none, none⟩ f)]
  | (s, v) :: rest, f =>
    if s == f.stem then (s, setVariant v f) :: rest
    else (s, v) :: insertVariant rest f

/-- The scan fold of ingest.py lines 178-184: walk the files in order; only
names ending in .docx or .pdf enter the map. -/
def files_map_go : List IngFile → List (String × Variants) → List (String × Variants)
  | [], m => m
  | f :: fs, m =>
    files_map_go fs (if f.ext == ".docx" || f.ext == ".pdf" then insertVariant m f else m)

/-- `files_map` after the full scan. -/
def files_map (files : List IngFile) : List (String × Variants) :=
  files_map_go files []

/-- Auxiliary predicate for the scan-map proofs: the map has an entry for
this stem whose docx slot is filled. -/
def DocxAt (m : List (String × Variants)) (s : String) : Prop :=
  ∃ v, (s, v) ∈ m ∧ v.docx ≠ none

/-- Key list of the scan map. -/
def mapKeys (m : List (String × Variants)) : List String := m.map Prod.fst

/-- Auxiliary invariant of the scan map: every filled slot holds a file of
the entry's stem and of the slot's format. -/
def GoodMap (m : List (String × Variants)) : Prop :=
  ∀ sv ∈ m, (∀ x, sv.2.docx = some x → x.stem = sv.1 ∧ x.ext = ".docx") ∧
    (∀ x, sv.2.pdf = some x → x.stem = sv.1 ∧ x.ext = ".pdf")

/-- Priority resolution per stem (ingest.py lines 188-194): docx wins, pdf is
taken only when no docx shares the stem. -/
def pickVariant (v : Variants) : Option IngFile :=
  match v.docx with
  | some d => some d
  | none => v.pdf

/-- The final list of files the ingest pipeline processes. -/
def final_files (files : List IngFile) : List IngFile :=
  (files_map files).filterMap (fun sv => pickVariant sv.2)

/-- ingest.py lines 102-120: the point list `upload_chunks` builds.
`embed` models `get_embedding` (none = embedding error); a chunk whose
embedding fails is skipped with a warning and the loop continues; surviving
chunks become points with payload text, source_file and chunk_index. `gen`
models `uuid.uuid4()`, indexed by chunk position. -/
def upload_chunks_points (embed : String → Option (List Int)) (gen : Nat → Nat)
    (source_file : String) : List String → Nat → List PointStruct
  | [], _ => []
  | c :: rest, i =>
    match embed c with
    | none => upload_chunks_points embed gen source_file rest (i + 1)
    | some v =>
      ⟨gen i, v, [("text", PVal.s c), ("source_file", PVal.s source_file),
        ("chunk_index", PVal.n i)]⟩ :: upload_chunks_points embed gen source_file rest (i + 1)

/-- One atomic external action of an ingest processing pass: the qdrant
delete-by-source_file, the single qdrant upsert, or the SQLite
INSERT-OR-REPLACE plus commit of (path, hash). -/
inductive IAct where
  | del (fname : String)
  | upsert (points : List PointStruct)
  | commitHash (path : String) (h : String)
deriving DecidableEq

/-- ingest.py lines 197-229, the actions one non-skipped file produces:
nothing if the file is skipped as unchanged or no text was extracted;
otherwise the optional delete (only when a previous DB row exists, line
222), the optional upsert (only when at least one chunk embedded, line 122),
and then the unconditional DB commit of the new hash (lines 227-229).
`extractOf` models parse_docx / parse_pdf and `split` the `chunk_text` call
with the module constants. -/
def passActions (md5 : List Nat → String) (extractOf : IngFile → String)
    (split : String → List String) (embed : String → Option (List Int))
    (gen : Nat → Nat) (state : String → Option String) (f : IngFile) : List IAct :=
  if skipsUnchanged md5 state f then []
  else
    let text := extractOf f
    if isBlank text then []
    else
      let chunks := split text
      let points := upload_chunks_points embed gen f.base chunks 0
      (if (state f.path).isSome then [IAct.del f.base] else []) ++
        (if points.isEmpty then [] else [IAct.upsert points]) ++
        [IAct.commitHash f.path (get_file_hash md5 f)]

/-- The world the ingest actions act on: the qdrant collection and the
SQLite files table. -/
structure IWorld where
  store : List PointStruct
  db : String → Option String

/-- Effect of one atomic ingest action. -/
def applyIAct (w : IWorld) : IAct → IWorld
  | .del fname => ⟨w.store.filter (fun pt => !(pointSource pt == some (PVal.s fname))), w.db⟩
  | .upsert ps => ⟨w.store ++ ps, w.db⟩
  | .commitHash p h => ⟨w.store, fun x => if x = p then some h else w.db x⟩

/-- Run a sequence of ingest actions; running only a prefix of a pass's
actions models a crash mid-pass. -/
def runIActs (w : IWorld) (acts : List IAct) : IWorld := acts.foldl applyIAct w

end Ingest

namespace Indexer

/-- upload.py line 20. -/
def SUPPORTED_EXTENSIONS : List String := [".docx", ".pdf", ".doc"]

/-- rag-indexer/config.py line 18 (default). -/
def CHUNK_SIZE : Nat := 800

/-- rag-indexer/config.py line 19 (default). -/
def CHUNK_OVERLAP : Nat := 60

/-- rag-indexer/config.py line 20 (default). -/
def BATCH_SIZE : Nat := 32

/-- A file as seen by the indexer walk: full path, basename, lowercased
suffix, byte content, mtime, and the category (basename of the containing
directory, upload.py line 186). -/
structure ScanFile where
  path : String
  base : String
  ext : String
  content : List Nat
  mtime : Nat
  category : String
deriving DecidableEq

/-- upload.py lines 290-311 `find_changed_files`: keep every walked file
whose name does not start with a tilde, whose extension is supported, and
whose recorded state differs from the current `os.path.getmtime` — the
content bytes are never consulted. -/
def find_changed_files (state : String → Option Nat) (files : List ScanFile) :
    List ScanFile :=
  files.filter (fun f =>
    !(startsWithTilde f.base) && SUPPORTED_EXTENSIONS.contains f.ext &&
      !(state f.path == some f.mtime))

/-- os.path.splitext(p)[0] ++ ".docx" for a path (or basename) ending in
".doc" (upload.py lines 233 and 352). -/
def docxPathOf (p : String) : String := p.dropRight 4 ++ ".docx"

/-- upload.py lines 103-125 `create_embeddings_batch`: one embedding-service
POST per chunk; any failing chunk makes the whole batch fail (`return None`),
otherwise each chunk becomes a point with payload text, source_file and
category — no chunk index. `embed` models the POST (none = RequestException
or error), `gen` models `uuid.uuid4()` indexed by chunk position. -/
def create_embeddings_batch (embed : String → Option (List Int)) (gen : Nat → Nat)
    (filename category : String) : List String → Nat → Option (List PointStruct)
  | [], _ => some []
  | c :: rest, i =>
    match embed c with
    | none => none
    | some v =>
      match create_embeddings_batch embed gen filename category rest (i + 1) with
      | none => none
      | some ps =>
        some (⟨gen i, v, [("text", PVal.s c), ("source_file", PVal.s filename),
          ("category", PVal.s category)]⟩ :: ps)

/-- The batches `points[i:i+batch_size]` for `i in range(0, len, batch_size)`
of upload_points_to_qdrant (upload.py lines 141-142). -/
def toBatches (b : Nat) (points : List PointStruct) : List (List PointStruct) :=
  (List.range (ceilDiv points.length b)).map (fun j => (points.drop (j * b)).take b)

/-- Number of leading upsert batches the qdrant client accepts before the
first failing call (the loop of upload.py lines 141-149 stops at the first
exception). -/
def okPrefixLen (upsertOk : Nat → Bool) (m : Nat) : Nat :=
  ((List.range m).takeWhile upsertOk).length

/-- A qdrant call performed by the indexer pass: the delete-by-source_file of
`delete_old_document_records` or one batched upsert. -/
inductive VOp where
  | del (fname : String)
  | upsert (points : List PointStruct)
deriving DecidableEq

/-- Result of `process_document`: the success flag of
DocumentProcessingResult together with the qdrant calls the pass performed,
in order. -/
structure ProcOutcome where
  success : Bool
  ops : List VOp
deriving DecidableEq

/-- upload.py lines 158-197 `process_document`. The delete of the document's
old records (line 163) is always the first call issued, before any
conversion, extraction, chunking or embedding — but
delete_old_document_records wraps the qdrant delete in try/except (lines
87-101): on an exception it only logs a warning and the pass CONTINUES with
the old points still stored. `deleteOk` records whether that delete call
took effect; `ops` lists the qdrant calls that took effect, so a failed
delete contributes no operation. Remaining oracles: `convertOk` — whether
convert_doc_to_docx succeeds for a .doc file; `extract` —
extract_text_from_docx/_pdf by path (none covers both extraction errors and
empty text, as in the source); `split` — self.text_splitter.split_text;
`embed`, `gen` — see create_embeddings_batch; `upsertOk` — whether the j-th
upsert call succeeds. A .doc file is extracted from its converted path and
indexed under the .docx basename (lines 166-171). -/
def process_document (deleteOk : Bool) (convertOk : Bool) (extract : String → Option String)
    (split : String → List String) (embed : String → Option (List Int))
    (gen : Nat → Nat) (upsertOk : Nat → Bool) (batchSize : Nat)
    (f : ScanFile) : ProcOutcome :=
  let delOps : List VOp := if deleteOk then [VOp.del f.base] else []
  let step1 : Option (String × String) :=
    if f.ext == ".doc" then
      if convertOk then (extract (docxPathOf f.path)).map (fun t => (docxPathOf f.base, t))
      else none
    else if f.ext == ".docx" || f.ext == ".pdf" then
      (extract f.path).map (fun t => (f.base, t))
    else none
  match step1 with
  | none => ⟨false, delOps⟩
  | some (fname, text) =>
    let chunks := split text
    if chunks.isEmpty then ⟨false, delOps⟩
    else
      match create_embeddings_batch embed gen fname f.category chunks 0 with
      | none => ⟨false, delOps⟩
      | some points =>
        let batches := toBatches batchSize points
        if (List.range batches.length).all upsertOk then
          ⟨true, delOps ++ batches.map VOp.upsert⟩
        else
          ⟨false,
            delOps ++ (batches.take (okPrefixLen upsertOk batches.length)).map VOp.upsert⟩

/-- Effect of one indexer qdrant call on the collection. The source's ids are
fresh uuid4 values, so an upsert only inserts. -/
def applyVOp (store : List PointStruct) : VOp → List PointStruct
  | .del fname => store.filter (fun pt => !(pointSource pt == some (PVal.s fname)))
  | .upsert ps => store ++ ps

/-- Apply a sequence of indexer qdrant calls. -/
def applyVOps (store : List PointStruct) (ops : List VOp) : List PointStruct :=
  ops.foldl applyVOp store

/-- upload.py lines 349-357: the `new_state` bookkeeping of `main` for one
processed file. On success a .doc file's key moves to the .docx path (whose
mtime is recorded when the converted file exists), every other file records
its own mtime; on failure the state is untouched. -/
def mainStep (docxExists : Bool) (docxMtime : Nat) (m : String → Option Nat)
    (f : ScanFile) (success : Bool) : String → Option Nat :=
  if success then
    if f.ext == ".doc" then
      upd (if docxExists then upd m (docxPathOf f.path) (some docxMtime) else m) f.path none
    else upd m f.path (some f.mtime)
  else m

/-- The state bookkeeping over the whole `files_to_process` loop of `main`
(upload.py lines 343-362); `results`, `docxExists` and `docxMtime` record
each file's processing outcome and conversion artifacts. -/
def mainLoop (results : ScanFile → Bool) (docxExists : ScanFile → Bool)
    (docxMtime : ScanFile → Nat) : (String → Option Nat) → List ScanFile →
    (String → Option Nat)
  | m, [] => m
  | m, f :: fs =>
    mainLoop results docxExists docxMtime
      (mainStep (docxExists f) (docxMtime f) m f (results f)) fs

/-- upload.py lines 364-369: the state that ends up persisted —
`save_state(new_state)` runs only when at least one file succeeded,
otherwise the state file keeps its previous content. -/
def mainPersisted (results : ScanFile → Bool) (docxExists : ScanFile → Bool)
    (docxMtime : ScanFile → Nat) (oldState : String → Option Nat)
    (files : List ScanFile) : String → Option Nat :=
  if files.any results then mainLoop results docxExists docxMtime oldState files
  else oldState

/-- upload.py lines 218-261 `convert_doc_to_docx`, as a function of the
filesystem (the list of existing paths). Capability flags: the platform
check of line 220, the pywin32 import of lines 224-228, and whether the Word
COM conversion itself succeeds. On the success paths the sibling .docx
exists afterwards and the original .doc is removed (os.remove, lines 237 and
248); on every failure path the filesystem is untouched. -/
def convert_doc_to_docx (platformIsWin : Bool) (hasWin32com : Bool)
    (wordConverts : Bool) (fs : List String) (file_path : String) :
    Option String × List String :=
  if !platformIsWin then (none, fs)
  else if !hasWin32com then (none, fs)
  else
    let docx := docxPathOf file_path
    if fs.contains docx then (some docx, fs.filter (fun q => !(q == file_path)))
    else if wordConverts then (some docx, docx :: fs.filter (fun q => !(q == file_path)))
    else (none, fs)

namespace Replace

/-- A point of one document in the replace-trace model, identified by the
document version that produced it and its chunk index in that version. -/
structure Pt where
  version : Nat
  idx : Nat
deriving DecidableEq

/-- The per-document slice of the world: the document's points in the
collection and the committed state entry (the version whose pass last
reached the state write). -/
structure St where
  store : List Pt
  committed : Option Nat
deriving DecidableEq

/-- One atomic step of a processing pass over the document: the delete of
all its points (upload.py line 163), one batched upsert (lines 141-149), or
the state commit in main (lines 349-357). -/
inductive Act where
  | del
  | upsertBatch (v lo len : Nat)
  | commit (v : Nat)
deriving DecidableEq

/-- Effect of one atomic step. -/
def applyAct (s : St) : Act → St
  | .del => ⟨[], s.committed⟩
  | .upsertBatch v lo len => ⟨s.store ++ (List.range len).map (fun j => ⟨v, lo + j⟩), s.committed⟩
  | .commit v => ⟨s.store, some v⟩

/-- The effective atomic steps of one full pass over version v with n chunks
and batch size b, in source order: the delete call is always issued first,
but delete_old_document_records swallows its exceptions (upload.py lines
87-101) and the pass continues — `delOk` records whether the delete took
effect, and a failed delete contributes no step; then come the
`ceil (n / b)` upsert batches `points[j*b : j*b+b]`, then the commit. -/
def passActs (delOk : Bool) (v n b : Nat) : List Act :=
  (if delOk then [Act.del] else []) ++
    ((List.range (ceilDiv n b)).map (fun j => Act.upsertBatch v (j * b) (min b (n - j * b)))
      ++ [Act.commit v])

/-- Run a list of atomic steps. -/
def runActs (s : St) (acts : List Act) : St := acts.foldl applyAct s

/-- Run one pass of which only the first k atomic steps execute; k below the
pass length models a crash or interruption at that point, k at (or past) the
length is a completed pass. -/
def runPass (s : St) (delOk : Bool) (v n b k : Nat) : St :=
  runActs s ((passActs delOk v n b).take k)

/-- A whole history: each entry (delOk, v, n, b, k) is one pass over the
document at version v with n chunks, batch size b, whose delete call took
effect iff delOk, interrupted after k effective atomic steps. -/
def runTrace (s : St) : List (Bool × Nat × Nat × Nat × Nat) → St
  | [] => s
  | e :: tr => runTrace (runPass s e.1 e.2.1 e.2.2.1 e.2.2.2.1 e.2.2.2.2) tr

/-- The first m points of version v, in chunk order — the shape every
reachable store has. -/
def prefixPts (v m : Nat) : List Pt := (List.range m).map (fun i => ⟨v, i⟩)

end Replace

end Indexer

/-! ## Helper lemmas -/

theorem create_embeddings_batch_all_some
    (embed : String → Option (List Int)) (gen : Nat → Nat) (fn cat : String) :
    ∀ (chunks : List String) (i : Nat), (∀ c ∈ chunks, (embed c).isSome) →
      ∃ pts, Indexer.create_embeddings_batch embed gen fn cat chunks i = some pts ∧
        pts.length = chunks.length ∧
        pts.map PointStruct.id = (List.range chunks.length).map (fun k => gen (i + k)) ∧
        ∀ pt ∈ pts, payloadKeys pt.payload = ["text", "source_file", "category"] ∧
          pointSource pt = some (PVal.s fn) ∧ ∃ c ∈ chunks, embed c = some pt.vector := by
  intro chunks
  induction chunks with
  | nil => intro i _; exact ⟨[], rfl, rfl, rfl, by simp⟩
  | cons c rest ih =>
    intro i hall
    obtain ⟨v, hv⟩ := Option.isSome_iff_exists.mp (hall c (by simp))
    obtain ⟨pts, hpts, hlen, hids, hshape⟩ := ih (i + 1) (fun d hd => hall d (by simp [hd]))
    refine ⟨⟨gen i, v, [("text", PVal.s c), ("source_file", PVal.s fn),
      ("category", PVal.s cat)]⟩ :: pts, ?_, by simp [hlen], ?_, ?_⟩
    · simp [Indexer.create_embeddings_batch, hv, hpts]
    · simp only [List.map_cons, hids, List.length_cons, List.range_succ_eq_map, List.map_map]
      refine congrArg₂ _ (by simp) (List.map_congr_left ?_)
      intro a _
      simp only [Function.comp_apply]
      congr 1
      omega
    · intro pt hpt
      rcases List.mem_cons.mp hpt with h | h
      · subst h
        refine ⟨by simp [payloadKeys], by simp [pointSource, List.lookup], c, by simp, by simp [hv]⟩
      · obtain ⟨hk, hs, d, hd, hde⟩ := hshape pt h
        exact ⟨hk, hs, d, by simp [hd], hde⟩

theorem upload_chunks_points_all_some
    (embed : String → Option (List Int)) (gen : Nat → Nat) (src : String) :
    ∀ (chunks : List String) (i : Nat), (∀ c ∈ chunks, (embed c).isSome) →
      (Ingest.upload_chunks_points embed gen src chunks i).map PointStruct.id =
        (List.range chunks.length).map (fun k => gen (i + k)) ∧
      ∀ pt ∈ Ingest.upload_chunks_points embed gen src chunks i,
        payloadKeys pt.payload = ["text", "source_file", "chunk_index"] ∧
          pointSource pt = some (PVal.s src) ∧ ∃ c ∈ chunks, embed c = some pt.vector := by
  intro chunks
  induction chunks with
  | nil => intro i _; exact ⟨rfl, by simp [Ingest.upload_chunks_points]⟩
  | cons c rest ih =>
    intro i hall
    obtain ⟨v, hv⟩ := Option.isSome_iff_exists.mp (hall c (by simp))
    obtain ⟨hids, hshape⟩ := ih (i + 1) (fun d hd => hall d (by simp [hd]))
    constructor
    · simp only [Ingest.upload_chunks_points, hv, List.map_cons, hids, List.length_cons,
        List.range_succ_eq_map, List.map_map]
      refine congrArg₂ _ (by simp) (List.map_congr_left ?_)
      intro a _
      simp only [Function.comp_apply]
      congr 1
      omega
    · intro pt hpt
      simp only [Ingest.upload_chunks_points, hv] at hpt
      rcases List.mem_cons.mp hpt with h | h
      · subst h
        refine ⟨by simp [payloadKeys], by simp [pointSource, List.lookup], c, by simp, by simp [hv]⟩
      · obtain ⟨hk, hs, d, hd, hde⟩ := hshape pt h
        exact ⟨hk, hs, d, by simp [hd], hde⟩

theorem ceilDiv_zero_left (step : Nat) : ceilDiv 0 step = 0 := by
  unfold ceilDiv
  cases step with
  | zero => rfl
  | succ s => exact Nat.div_eq_of_lt (by omega)

theorem ceilDiv_eq_succ (step r : Nat) (hstep : 0 < step) (hr : 0 < r) :
    ceilDiv r step = (r - 1) / step + 1 := by
  unfold ceilDiv
  have h : r + step - 1 = (r - 1) + step := by omega
  rw [h, Nat.add_div_right _ hstep]

theorem ceilDiv_pos (step r : Nat) (hstep : 0 < step) (hr : 0 < r) : 0 < ceilDiv r step := by
  rw [ceilDiv_eq_succ step r hstep hr]
  exact Nat.succ_pos _

theorem ceilDiv_sub_step (step r : Nat) (hstep : 0 < step) (hr : 0 < r) :
    ceilDiv r step = ceilDiv (r - step) step + 1 := by
  rcases Nat.lt_or_ge r (step + 1) with h | h
  · have h0 : r - step = 0 := by omega
    rw [h0, ceilDiv_zero_left, ceilDiv_eq_succ step r hstep hr, Nat.div_eq_of_lt (by omega)]
  · rw [ceilDiv_eq_succ step r hstep hr, ceilDiv_eq_succ step (r - step) hstep (by omega)]
    have h3 : r - 1 = (r - step - 1) + step := by omega
    rw [h3, Nat.add_div_right _ hstep]

theorem ceilDiv_le (step L : Nat) (hstep : 0 < step) : ceilDiv L step ≤ L + 1 := by
  cases Nat.eq_zero_or_pos L with
  | inl h => rw [h, ceilDiv_zero_left]; omega
  | inr h =>
    rw [ceilDiv_eq_succ step L hstep h]
    have := Nat.div_le_self (L - 1) step
    omega

theorem chunk_text_loop_eq {α : Type} (size overlap : Nat) (text : List α)
    (hov : overlap < size) :
    ∀ (fuel start : Nat), ceilDiv (text.length - start) (size - overlap) ≤ fuel →
      Ingest.chunk_text_loop size overlap text fuel start =
        some ((List.range (ceilDiv (text.length - start) (size - overlap))).map
          (fun k => (text.drop (start + k * (size - overlap))).take size)) := by
  have hstep : 0 < size - overlap := by omega
  intro fuel
  induction fuel with
  | zero =>
    intro start hle
    have h0 : text.length - start = 0 := by
      by_contra hne
      have := ceilDiv_pos (size - overlap) (text.length - start) hstep (by omega)
      omega
    have hsl : ¬ start < text.length := by omega
    simp [Ingest.chunk_text_loop, hsl, h0, ceilDiv_zero_left]
  | succ fuel ih =>
    intro start hle
    by_cases hsl : start < text.length
    · have hr : 0 < text.length - start := by omega
      have hsub : text.length - (start + (size - overlap))
          = (text.length - start) - (size - overlap) := by omega
      have hcnt := ceilDiv_sub_step (size - overlap) (text.length - start) hstep hr
      have hrec := ih (start + (size - overlap)) (by rw [hsub]; omega)
      simp only [Ingest.chunk_text_loop, if_pos hsl, hrec]
      rw [hcnt, hsub] at *
      rw [List.range_succ_eq_map]
      simp only [List.map_cons, List.map_map]
      refine congrArg _ (congrArg₂ _ (by simp) (List.map_congr_left ?_))
      intro a _
      simp only [Function.comp_apply]
      congr 2
      rw [Nat.succ_eq_add_one]
      ring
    · have h0 : text.length - start = 0 := by omega
      simp [Ingest.chunk_text_loop, hsl, h0, ceilDiv_zero_left]

theorem chunk_text_eq_chunkSpec {α : Type} (size overlap : Nat) (text : List α)
    (hov : overlap < size) :
    Ingest.chunk_text size overlap text = some (Ingest.chunkSpec size overlap text) := by
  have h := chunk_text_loop_eq size overlap text hov (text.length + 1) 0
    (by simpa using ceilDiv_le (size - overlap) text.length (by omega))
  simpa [Ingest.chunk_text, Ingest.chunkSpec] using h

theorem chunk_text_loop_stuck {α : Type} (size overlap : Nat) (text : List α)
    (h : size ≤ overlap) (ht : 0 < text.length) :
    ∀ fuel, Ingest.chunk_text_loop size overlap text fuel 0 = none := by
  intro fuel
  induction fuel with
  | zero => simp [Ingest.chunk_text_loop, ht]
  | succ fuel ih =>
    have hz : size - overlap = 0 := by omega
    simp [Ingest.chunk_text_loop, ht, hz, ih]

theorem chunkSpec_recon_aux {α : Type} (step size : Nat) (text : List α) :
    ∀ m, text.take size ++
        ((List.range m).map (fun k => (text.drop (k * step + size)).take step)).flatten
      = text.take (m * step + size) := by
  intro m
  induction m with
  | zero => simp
  | succ m ih =>
    rw [List.range_succ]
    simp only [List.map_append, List.flatten_append, List.map_cons, List.map_nil,
      List.flatten_cons, List.flatten_nil, List.append_nil]
    rw [← List.append_assoc, ih, ← List.take_add]
    congr 1
    ring

theorem create_embeddings_batch_none
    (embed : String → Option (List Int)) (gen : Nat → Nat) (fn cat : String) :
    ∀ (chunks : List String) (i : Nat), (∃ c ∈ chunks, embed c = none) →
      Indexer.create_embeddings_batch embed gen fn cat chunks i = none := by
  intro chunks
  induction chunks with
  | nil => intro i h; simp at h
  | cons c rest ih =>
    intro i h
    obtain ⟨d, hd, hde⟩ := h
    rcases List.mem_cons.mp hd with rfl | hdm
    · simp [Indexer.create_embeddings_batch, hde]
    · cases hc : embed c with
      | none => simp [Indexer.create_embeddings_batch, hc]
      | some v => simp [Indexer.create_embeddings_batch, hc, ih (i + 1) ⟨d, hdm, hde⟩]

theorem mainStep_preserves_other (dx : Bool) (dm : Nat) (m : String → Option Nat)
    (g : Indexer.ScanFile) (r : Bool) (q : String)
    (h1 : q ≠ g.path) (h2 : q ≠ Indexer.docxPathOf g.path) :
    Indexer.mainStep dx dm m g r q = m q := by
  unfold Indexer.mainStep
  cases r with
  | false => rfl
  | true =>
    by_cases hd : (g.ext == ".doc")
    · cases dx with
      | false => simp [hd, upd, h1]
      | true => simp [hd, upd, h1, h2]
    · simp [hd, upd, h1]

theorem mainLoop_untouched (results : Indexer.ScanFile → Bool)
    (dxE : Indexer.ScanFile → Bool) (dxM : Indexer.ScanFile → Nat)
    (f : Indexer.ScanFile) (hfail : results f = false) :
    ∀ (fs : List Indexer.ScanFile) (m : String → Option Nat),
      (∀ g ∈ fs, g ≠ f → g.path ≠ f.path ∧ Indexer.docxPathOf g.path ≠ f.path) →
      Indexer.mainLoop results dxE dxM m fs f.path = m f.path := by
  intro fs
  induction fs with
  | nil => intro m _; rfl
  | cons g gs ih =>
    intro m hsep
    simp only [Indexer.mainLoop]
    rw [ih _ (fun g' hg' => hsep g' (List.mem_cons_of_mem g hg'))]
    by_cases hgf : g = f
    · subst hgf
      rw [hfail]
      rfl
    · obtain ⟨hp, hdp⟩ := hsep g (by simp) hgf
      exact mainStep_preserves_other _ _ m g (results g) f.path (Ne.symm hp) (Ne.symm hdp)

/-! ## C1 — fingerprint-based change detection -/

/-- C1 (amended): the rag-ingest pipeline selects a document for reprocessing
iff its MD5 content fingerprint differs from the persisted one — the skip
decision of process_docs is invariant under mtime changes with fixed bytes,
a document whose stored fingerprint matches its content hash is skipped at
any mtime, and a content change that changes the digest forces reprocessing.
(The rag-indexer pipeline instead keys on mtimes; see the counterexample.) -/
theorem C1_ingest_fingerprint_selection
    (md5 : List Nat → String) (state : String → Option String)
    (p base stem ext : String) (c c' : List Nat) (t t' : Nat) :
    (Ingest.skipsUnchanged md5 state ⟨p, base, stem, ext, c, t⟩ =
      Ingest.skipsUnchanged md5 state ⟨p, base, stem, ext, c, t'⟩) ∧
    (state p = some (md5 c) →
      Ingest.skipsUnchanged md5 state ⟨p, base, stem, ext, c, t'⟩ = true) ∧
    (state p = some (md5 c) → md5 c' ≠ md5 c →
      Ingest.skipsUnchanged md5 state ⟨p, base, stem, ext, c', t'⟩ = false) := by
  refine ⟨rfl, ?_, ?_⟩
  · intro h1
    simp [Ingest.skipsUnchanged, Ingest.get_file_hash, h1]
  · intro h1 h2
    simp only [Ingest.skipsUnchanged, Ingest.get_file_hash, h1, beq_eq_false_iff_ne, ne_eq]
    exact fun h => h2 h.symm

/-- C1 witness: a concrete digest function and state; same bytes at a moved
mtime stay skipped, a byte change under the same stored digest is selected. -/
theorem C1_ingest_fingerprint_selection_witness :
    Ingest.skipsUnchanged (fun l => toString l.length)
        (fun q => if q = "/d/a.docx" then some "2" else none)
        ⟨"/d/a.docx", "a.docx", "a", ".docx", [5, 6], 9⟩ = true ∧
      Ingest.skipsUnchanged (fun l => toString l.length)
        (fun q => if q = "/d/a.docx" then some "2" else none)
        ⟨"/d/a.docx", "a.docx", "a", ".docx", [5], 9⟩ = false :=
  ⟨(C1_ingest_fingerprint_selection (fun l => toString l.length)
      (fun q => if q = "/d/a.docx" then some "2" else none)
      "/d/a.docx" "a.docx" "a" ".docx" [5, 6] [5, 6] 1 9).2.1 (by decide),
   (C1_ingest_fingerprint_selection (fun l => toString l.length)
      (fun q => if q = "/d/a.docx" then some "2" else none)
      "/d/a.docx" "a.docx" "a" ".docx" [5, 6] [5] 1 9).2.2 (by decide) (by decide)⟩

/-- C1 counterexample: the rag-indexer pipeline selects by modification time,
not by content fingerprint — a file whose bytes are unchanged but whose
recorded mtime 1 moved to 2 is put in the processing queue by
find_changed_files, refuting the claim that touching only the mtime never
causes reprocessing. -/
theorem C1_counterexample_mtime_selected :
    Indexer.find_changed_files (fun q => if q = "/docs/a.docx" then some 1 else none)
        [⟨"/docs/a.docx", "a.docx", ".docx", [104, 105], 2, "docs"⟩] =
      [⟨"/docs/a.docx", "a.docx", ".docx", [104, 105], 2, "docs"⟩] ∧
    (⟨"/docs/a.docx", "a.docx", ".docx", [104, 105], 2, "docs"⟩ : Indexer.ScanFile).content =
      (⟨"/docs/a.docx", "a.docx", ".docx", [104, 105], 1, "docs"⟩ : Indexer.ScanFile).content ∧
    (⟨"/docs/a.docx", "a.docx", ".docx", [104, 105], 2, "docs"⟩ : Indexer.ScanFile).mtime ≠
      (⟨"/docs/a.docx", "a.docx", ".docx", [104, 105], 1, "docs"⟩ : Indexer.ScanFile).mtime := by
  refine ⟨?_, rfl, by decide⟩
  decide

/-! ## C8 — the shape of uploaded vector points -/

/-- C8 (amended): every uploaded point has a unique id (given a collision-free
uuid supply), an embedding vector produced for one of the document's chunks,
and a payload carrying the chunk text and the source document identifier —
but the two pipelines split the remaining claimed fields: rag-indexer's
payload carries the category and no chunk index, rag-ingest's carries the
zero-based chunk index and no category. -/
theorem C8_point_shape
    (embed : String → Option (List Int)) (gen : Nat → Nat)
    (fn cat src : String) (chunks : List String)
    (hinj : Function.Injective gen)
    (hall : ∀ c ∈ chunks, (embed c).isSome) :
    (∃ pts, Indexer.create_embeddings_batch embed gen fn cat chunks 0 = some pts ∧
      (pts.map PointStruct.id).Nodup ∧
      ∀ pt ∈ pts, payloadKeys pt.payload = ["text", "source_file", "category"] ∧
        pointSource pt = some (PVal.s fn) ∧ ∃ c ∈ chunks, embed c = some pt.vector) ∧
    ((Ingest.upload_chunks_points embed gen src chunks 0).map PointStruct.id).Nodup ∧
    (∀ pt ∈ Ingest.upload_chunks_points embed gen src chunks 0,
      payloadKeys pt.payload = ["text", "source_file", "chunk_index"] ∧
        pointSource pt = some (PVal.s src) ∧ ∃ c ∈ chunks, embed c = some pt.vector) := by
  obtain ⟨pts, hpts, _, hids, hshape⟩ :=
    create_embeddings_batch_all_some embed gen fn cat chunks 0 hall
  obtain ⟨hids2, hshape2⟩ := upload_chunks_points_all_some embed gen src chunks 0 hall
  have hnd : ((List.range chunks.length).map (fun k => gen (0 + k))).Nodup :=
    (List.nodup_range _).map (fun a b hab => by
      have := hinj hab; omega)
  exact ⟨⟨pts, hpts, hids ▸ hnd, hshape⟩, hids2 ▸ hnd, hshape2⟩

/-- C8 witness: a one-chunk document through both pipelines. -/
theorem C8_point_shape_witness :
    (∃ pts, Indexer.create_embeddings_batch (fun _ => some [1]) (fun i => i)
        "a.docx" "cat" ["hello"] 0 = some pts ∧
      (pts.map PointStruct.id).Nodup ∧
      ∀ pt ∈ pts, payloadKeys pt.payload = ["text", "source_file", "category"] ∧
        pointSource pt = some (PVal.s "a.docx") ∧
        ∃ c ∈ ["hello"], (fun _ => some [1] : String → Option (List Int)) c = some pt.vector) ∧
    ((Ingest.upload_chunks_points (fun _ => some [1]) (fun i => i) "b.pdf" ["hello"] 0).map
      PointStruct.id).Nodup ∧
    (∀ pt ∈ Ingest.upload_chunks_points (fun _ => some [1]) (fun i => i) "b.pdf" ["hello"] 0,
      payloadKeys pt.payload = ["text", "source_file", "chunk_index"] ∧
        pointSource pt = some (PVal.s "b.pdf") ∧
        ∃ c ∈ ["hello"], (fun _ => some [1] : String → Option (List Int)) c = some pt.vector) :=
  C8_point_shape (fun _ => some [1]) (fun i => i) "a.docx" "cat" "b.pdf" ["hello"]
    (fun a b h => h) (by intro c _; simp)

/-- C8 counterexample: neither pipeline's payload carries all four claimed
fields — the rag-indexer point for a chunk has no chunk_index key, and the
rag-ingest point has no category key. -/
theorem C8_counterexample_payload_fields :
    Indexer.create_embeddings_batch (fun _ => some [1]) (fun i => i) "a.docx" "cat" ["hello"] 0 =
      some [⟨0, [1], [("text", PVal.s "hello"), ("source_file", PVal.s "a.docx"),
        ("category", PVal.s "cat")]⟩] ∧
    "chunk_index" ∉ payloadKeys [("text", PVal.s "hello"), ("source_file", PVal.s "a.docx"),
      ("category", PVal.s "cat")] ∧
    Ingest.upload_chunks_points (fun _ => some [1]) (fun i => i) "a.docx" ["hello"] 0 =
      [⟨0, [1], [("text", PVal.s "hello"), ("source_file", PVal.s "a.docx"),
        ("chunk_index", PVal.n 0)]⟩] ∧
    "category" ∉ payloadKeys [("text", PVal.s "hello"), ("source_file", PVal.s "a.docx"),
      ("chunk_index", PVal.n 0)] := by
  refine ⟨rfl, by decide, rfl, by decide⟩

/-! ## C2 — a failed chunk embedding fails the whole document pass -/

/-- C2 (amended, restricted to the rag-indexer pipeline): if the embedding
call fails for at least one chunk of a document, create_embeddings_batch
returns None, the document's pass fails, the only vector-store call of the
pass is the initial delete (no points are upserted; the delete call itself
may fail silently, in which case no call took effect), and main leaves the
document's state record unchanged. (The rag-ingest pipeline instead skips
the failed chunk and indexes the rest; see the counterexample.) -/
theorem C2_indexer_chunk_failure_fails_pass
    (deleteOk convertOk : Bool) (extract : String → Option String)
    (split : String → List String)
    (embed : String → Option (List Int)) (gen : Nat → Nat) (upsertOk : Nat → Bool)
    (batchSize : Nat) (f : Indexer.ScanFile) (text c : String)
    (dx : Bool) (dm : Nat) (m : String → Option Nat)
    (hext : f.ext = ".docx" ∨ f.ext = ".pdf")
    (hex : extract f.path = some text)
    (hc : c ∈ split text) (hfail : embed c = none) :
    Indexer.create_embeddings_batch embed gen f.base f.category (split text) 0 = none ∧
    (Indexer.process_document deleteOk convertOk extract split embed gen upsertOk batchSize
      f).success = false ∧
    (Indexer.process_document deleteOk convertOk extract split embed gen upsertOk batchSize
      f).ops = (if deleteOk then [Indexer.VOp.del f.base] else []) ∧
    Indexer.mainStep dx dm m f
      (Indexer.process_document deleteOk convertOk extract split embed gen upsertOk batchSize
        f).success = m := by
  have hnone : Indexer.create_embeddings_batch embed gen f.base f.category (split text) 0
      = none :=
    create_embeddings_batch_none embed gen f.base f.category (split text) 0 ⟨c, hc, hfail⟩
  have hne : (split text).isEmpty = false := by
    cases hs : split text with
    | nil => rw [hs] at hc; simp at hc
    | cons a l => rfl
  have hpd : Indexer.process_document deleteOk convertOk extract split embed gen upsertOk
      batchSize f = ⟨false, if deleteOk then [Indexer.VOp.del f.base] else []⟩ := by
    rcases hext with h | h
    · simp [Indexer.process_document, h, hex, hne, hnone]
    · simp [Indexer.process_document, h, hex, hne, hnone]
  refine ⟨hnone, by rw [hpd], by rw [hpd], by rw [hpd]; rfl⟩

/-- C2 witness: a three-chunk document whose middle chunk fails to embed,
with the initial delete taking effect. -/
theorem C2_indexer_chunk_failure_fails_pass_witness :
    Indexer.create_embeddings_batch (fun s => if s == "b" then none else some [1]) (fun i => i)
      "x.docx" "d" ((fun _ => ["a", "b", "c"]) "T") 0 = none ∧
    (Indexer.process_document true true (fun _ => some "T") (fun _ => ["a", "b", "c"])
      (fun s => if s == "b" then none else some [1]) (fun i => i) (fun _ => true) 32
      ⟨"/d/x.docx", "x.docx", ".docx", [1], 5, "d"⟩).success = false ∧
    (Indexer.process_document true true (fun _ => some "T") (fun _ => ["a", "b", "c"])
      (fun s => if s == "b" then none else some [1]) (fun i => i) (fun _ => true) 32
      ⟨"/d/x.docx", "x.docx", ".docx", [1], 5, "d"⟩).ops = [Indexer.VOp.del "x.docx"] ∧
    Indexer.mainStep false 0 (fun _ => none)
      ⟨"/d/x.docx", "x.docx", ".docx", [1], 5, "d"⟩
      (Indexer.process_document true true (fun _ => some "T") (fun _ => ["a", "b", "c"])
        (fun s => if s == "b" then none else some [1]) (fun i => i) (fun _ => true) 32
        ⟨"/d/x.docx", "x.docx", ".docx", [1], 5, "d"⟩).success = (fun _ => none) :=
  C2_indexer_chunk_failure_fails_pass true true (fun _ => some "T") (fun _ => ["a", "b", "c"])
    (fun s => if s == "b" then none else some [1]) (fun i => i) (fun _ => true) 32
    ⟨"/d/x.docx", "x.docx", ".docx", [1], 5, "d"⟩ "T" "b" false 0 (fun _ => none)
    (Or.inl rfl) rfl (by decide) (by decide)

/-- C2 counterexample: in the rag-ingest pipeline an embedding failure on the
middle chunk of three is skipped — the pass still upserts the other two
chunks' points and still commits the new hash to the state table, refuting
the claim that a failed chunk is never skipped while the rest are indexed. -/
theorem C2_counterexample_ingest_skips_failed_chunk :
    Ingest.passActions (fun _ => "H") (fun _ => "body") (fun _ => ["c0", "c1", "c2"])
        (fun s => if s == "c1" then none else some [2]) (fun i => i) (fun _ => none)
        ⟨"/d/r.docx", "r.docx", "r", ".docx", [7], 1⟩ =
      [Ingest.IAct.upsert
          [⟨0, [2], [("text", PVal.s "c0"), ("source_file", PVal.s "r.docx"),
            ("chunk_index", PVal.n 0)]⟩,
           ⟨2, [2], [("text", PVal.s "c2"), ("source_file", PVal.s "r.docx"),
            ("chunk_index", PVal.n 2)]⟩],
        Ingest.IAct.commitHash "/d/r.docx" "H"] ∧
    (Ingest.runIActs ⟨[], fun _ => none⟩
        (Ingest.passActions (fun _ => "H") (fun _ => "body") (fun _ => ["c0", "c1", "c2"])
          (fun s => if s == "c1" then none else some [2]) (fun i => i) (fun _ => none)
          ⟨"/d/r.docx", "r.docx", "r", ".docx", [7], 1⟩)).db "/d/r.docx" = some "H" := by
  constructor
  · decide
  · decide

/-! ## C3 — state is committed only on full success -/

/-- C3 (amended, restricted to the rag-indexer pipeline): a document's state
entry is written only on a fully successful pass — main's bookkeeping step
for a failed document is the identity, and across a whole run the persisted
state at a failed document's key (assuming no other processed file writes
that same key) equals the previous state, so a later run sees the old
record. (The rag-ingest pipeline commits its hash even when chunk embeddings
failed; see the counterexample.) -/
theorem C3_indexer_commit_only_on_success
    (results : Indexer.ScanFile → Bool) (docxExists : Indexer.ScanFile → Bool)
    (docxMtime : Indexer.ScanFile → Nat) (oldState : String → Option Nat)
    (files : List Indexer.ScanFile) (f : Indexer.ScanFile)
    (hf : f ∈ files) (hfail : results f = false)
    (hsep : ∀ g ∈ files, g ≠ f → g.path ≠ f.path ∧ Indexer.docxPathOf g.path ≠ f.path) :
    Indexer.mainStep (docxExists f) (docxMtime f) oldState f (results f) = oldState ∧
    Indexer.mainPersisted results docxExists docxMtime oldState files f.path
      = oldState f.path := by
  constructor
  · rw [hfail]
    rfl
  · unfold Indexer.mainPersisted
    by_cases hany : files.any results
    · rw [if_pos hany]
      exact mainLoop_untouched results docxExists docxMtime f hfail files oldState hsep
    · rw [if_neg hany]

/-- C3 witness: a run over one failed and one successful file; the failed
file's state entry survives unchanged. -/
theorem C3_indexer_commit_only_on_success_witness :
    Indexer.mainStep false 0 (fun q => if q = "/d/a.pdf" then some 3 else none)
        ⟨"/d/a.pdf", "a.pdf", ".pdf", [1], 9, "d"⟩
        ((fun g : Indexer.ScanFile => g.path == "/d/b.docx")
          ⟨"/d/a.pdf", "a.pdf", ".pdf", [1], 9, "d"⟩)
      = (fun q => if q = "/d/a.pdf" then some 3 else none) ∧
    Indexer.mainPersisted (fun g => g.path == "/d/b.docx") (fun _ => false) (fun _ => 0)
        (fun q => if q = "/d/a.pdf" then some 3 else none)
        [⟨"/d/a.pdf", "a.pdf", ".pdf", [1], 9, "d"⟩,
         ⟨"/d/b.docx", "b.docx", ".docx", [2], 4, "d"⟩] "/d/a.pdf"
      = (fun q => if q = "/d/a.pdf" then some 3 else none) "/d/a.pdf" :=
  C3_indexer_commit_only_on_success (fun g => g.path == "/d/b.docx") (fun _ => false)
    (fun _ => 0) (fun q => if q = "/d/a.pdf" then some 3 else none)
    [⟨"/d/a.pdf", "a.pdf", ".pdf", [1], 9, "d"⟩,
     ⟨"/d/b.docx", "b.docx", ".docx", [2], 4, "d"⟩]
    ⟨"/d/a.pdf", "a.pdf", ".pdf", [1], 9, "d"⟩
    (by decide) (by decide) (by decide)

/-- C3 counterexample: the rag-ingest pipeline commits the new content hash
to its state table even though every chunk embedding failed and nothing was
upserted — the pass for a one-chunk document with a failing embedder is
exactly one DB commit, after which the store is still empty but the state
maps the path to the new hash, refuting the claim that state is written only
after all chunks embedded and the upsert succeeded. -/
theorem C3_counterexample_ingest_commit_without_success :
    Ingest.passActions (fun _ => "H") (fun _ => "body") (fun _ => ["c0"]) (fun _ => none)
        (fun i => i) (fun _ => none) ⟨"/d/r.docx", "r.docx", "r", ".docx", [7], 1⟩ =
      [Ingest.IAct.commitHash "/d/r.docx" "H"] ∧
    (Ingest.runIActs ⟨[], fun _ => none⟩
        [Ingest.IAct.commitHash "/d/r.docx" "H"]).db "/d/r.docx" = some "H" ∧
    (Ingest.runIActs ⟨[], fun _ => none⟩
        [Ingest.IAct.commitHash "/d/r.docx" "H"]).store = [] := by
  refine ⟨by decide, by decide, rfl⟩

/-! ## C6 — chunker termination and the absent startup guard -/

/-- C6 (amended): no code in the repository rejects overlap ≥ maxSize at
startup, and ingest.py's chunk_text diverges on nonempty text for such a
configuration (see the counterexample); what does hold is that for every
configuration with overlap < maxSize — among them the hard-coded ingest
constants (1000, 100) and the indexer config defaults (800, 60) — the
chunk_text loop terminates on every input text. -/
theorem C6_chunk_text_terminates {α : Type} (size overlap : Nat) (text : List α)
    (hov : overlap < size) :
    Ingest.ChunkTextTerminates size overlap text ∧
    Ingest.CHUNK_OVERLAP < Ingest.CHUNK_SIZE ∧
    Indexer.CHUNK_OVERLAP < Indexer.CHUNK_SIZE := by
  refine ⟨⟨text.length + 1, ?_⟩, by decide, by decide⟩
  rw [chunk_text_loop_eq size overlap text hov (text.length + 1) 0
    (by simpa using ceilDiv_le (size - overlap) text.length (by omega))]
  rfl

/-- C6 witness: the deployed ingest configuration terminates on a concrete
text. -/
theorem C6_chunk_text_terminates_witness :
    Ingest.ChunkTextTerminates Ingest.CHUNK_SIZE Ingest.CHUNK_OVERLAP ['a', 'b'] ∧
    Ingest.CHUNK_OVERLAP < Ingest.CHUNK_SIZE ∧
    Indexer.CHUNK_OVERLAP < Indexer.CHUNK_SIZE :=
  C6_chunk_text_terminates Ingest.CHUNK_SIZE Ingest.CHUNK_OVERLAP ['a', 'b'] (by decide)

/-- C6 counterexample: overlap = maxSize = 60 is a configuration nothing in
the repository rejects, and on it chunk_text never terminates on the
nonempty text of one character — no fuel makes the loop finish, refuting the
claim that such configurations are rejected at startup and that the accepted
chunker is total. -/
theorem C6_counterexample_divergent_config :
    ¬ Ingest.ChunkTextTerminates 60 60 ['x'] := by
  rintro ⟨fuel, hf⟩
  rw [chunk_text_loop_stuck 60 60 ['x'] (by decide) (by decide) fuel] at hf
  simp at hf

/-! ## C7 — the chunk cascade is deterministic and lossless -/

/-- C7: for every configuration with 0 < overlap < maxSize, chunk_text
terminates with exactly ceil (L / (maxSize - overlap)) chunks (zero for
empty text), chunk k is the character range starting at
k * (maxSize - overlap) of length at most maxSize, and concatenating the
chunks after removing the first `overlap` characters of every chunk except
the first reconstructs the text exactly. -/
theorem C7_chunk_text_deterministic_lossless {α : Type} (size overlap : Nat)
    (text : List α) (h1 : 0 < overlap) (h2 : overlap < size) :
    Ingest.chunk_text size overlap text = some (Ingest.chunkSpec size overlap text) ∧
    (Ingest.chunkSpec size overlap text).length = ceilDiv text.length (size - overlap) ∧
    (text.length = 0 → Ingest.chunkSpec size overlap text = []) ∧
    (∀ k (hk : k < (Ingest.chunkSpec size overlap text).length),
      (Ingest.chunkSpec size overlap text).get ⟨k, hk⟩ =
        (text.drop (k * (size - overlap))).take size ∧
      ((Ingest.chunkSpec size overlap text).get ⟨k, hk⟩).length ≤ size) ∧
    (0 < text.length →
      (Ingest.chunkSpec size overlap text).headI ++
        (((Ingest.chunkSpec size overlap text).tail).map
          (fun c => c.drop overlap)).flatten = text) := by
  have hstep : 0 < size - overlap := by omega
  refine ⟨chunk_text_eq_chunkSpec size overlap text h2, by simp [Ingest.chunkSpec], ?_, ?_, ?_⟩
  · intro hL
    simp [Ingest.chunkSpec, hL, ceilDiv_zero_left]
  · intro k hk
    constructor
    · simp [Ingest.chunkSpec]
    · simp only [Ingest.chunkSpec, List.get_eq_getElem, List.getElem_map, List.getElem_range,
        List.length_take]
      omega
  · intro hL
    obtain ⟨m, hm⟩ : ∃ m, ceilDiv text.length (size - overlap) = m + 1 :=
      ⟨ceilDiv text.length (size - overlap) - 1,
        (Nat.succ_pred_eq_of_pos (ceilDiv_pos _ _ hstep hL)).symm⟩
    have hmval : m = (text.length - 1) / (size - overlap) := by
      have := ceilDiv_eq_succ (size - overlap) text.length hstep hL
      omega
    unfold Ingest.chunkSpec
    rw [hm, List.range_succ_eq_map]
    simp only [List.map_cons, List.map_map, List.headI, List.tail_cons, Nat.zero_mul,
      List.drop_zero]
    have helem : ∀ a : Nat,
        ((fun c => List.drop overlap c) ∘
            (fun k => (text.drop (k * (size - overlap))).take size) ∘ Nat.succ) a =
          (text.drop (a * (size - overlap) + size)).take (size - overlap) := by
      intro a
      simp only [Function.comp_apply, List.drop_take, List.drop_drop]
      have hx : Nat.succ a * (size - overlap) = a * (size - overlap) + (size - overlap) := by
        rw [Nat.succ_eq_add_one]
        ring
      have hso : Nat.succ a * (size - overlap) + overlap = a * (size - overlap) + size := by
        rw [hx]
        generalize a * (size - overlap) = Q
        omega
      rw [hso]
    rw [List.map_congr_left (fun a _ => helem a)]
    rw [chunkSpec_recon_aux (size - overlap) size text m]
    refine List.take_of_length_le ?_
    rw [hmval, Nat.mul_comm ((text.length - 1) / (size - overlap)) (size - overlap)]
    have hdm := Nat.div_add_mod (text.length - 1) (size - overlap)
    have hmod := Nat.mod_lt (text.length - 1) hstep
    generalize hq : (size - overlap) * ((text.length - 1) / (size - overlap)) = P at hdm ⊢
    generalize hr : (text.length - 1) % (size - overlap) = R at hdm hmod
    omega

/-- C7 witness: with maxSize 800 and overlap 60 a 2000-character text yields
exactly 3 chunks and a 500-character text exactly 1 chunk, and chunk_text
terminates with exactly the closed-form chunks. -/
theorem C7_chunk_text_deterministic_lossless_witness :
    Ingest.chunk_text 800 60 (List.replicate 2000 'a') =
      some (Ingest.chunkSpec 800 60 (List.replicate 2000 'a')) ∧
    (Ingest.chunkSpec 800 60 (List.replicate 2000 'a')).length = 3 ∧
    (Ingest.chunkSpec 800 60 (List.replicate 500 'a')).length = 1 := by
  have h1 := C7_chunk_text_deterministic_lossless 800 60 (List.replicate 2000 'a')
    (by decide) (by decide)
  have h2 := C7_chunk_text_deterministic_lossless 800 60 (List.replicate 500 'a')
    (by decide) (by decide)
  refine ⟨h1.1, ?_, ?_⟩
  · rw [h1.2.1, List.length_replicate]
    decide
  · rw [h2.2.1, List.length_replicate]
    decide

/-! ## C10 — legacy .doc processing mutates the source tree -/

/-- C10: on the supported platform with the conversion capability available
(the sibling .docx already existing or Word converting successfully),
convert_doc_to_docx returns the .docx path and a changed filesystem in which
the original .doc file is gone and the sibling .docx exists; and on a
successful pass over a .doc file, main's bookkeeping drops the .doc state
key and records the .docx path instead — indexing is not read-only over the
source directory. -/
theorem C10_doc_conversion_mutates
    (wordConverts : Bool) (fs : List String) (p : String)
    (f : Indexer.ScanFile) (dm : Nat) (m : String → Option Nat)
    (hin : p ∈ fs) (hne : Indexer.docxPathOf p ≠ p)
    (hcap : Indexer.docxPathOf p ∈ fs ∨ wordConverts = true)
    (hext : f.ext = ".doc") (hfp : f.path ≠ Indexer.docxPathOf f.path) :
    (Indexer.convert_doc_to_docx true true wordConverts fs p).1 =
        some (Indexer.docxPathOf p) ∧
    p ∉ (Indexer.convert_doc_to_docx true true wordConverts fs p).2 ∧
    Indexer.docxPathOf p ∈ (Indexer.convert_doc_to_docx true true wordConverts fs p).2 ∧
    (Indexer.convert_doc_to_docx true true wordConverts fs p).2 ≠ fs ∧
    Indexer.mainStep true dm m f true f.path = none ∧
    Indexer.mainStep true dm m f true (Indexer.docxPathOf f.path) = some dm := by
  have hmain1 : Indexer.mainStep true dm m f true f.path = none := by
    simp [Indexer.mainStep, hext, upd]
  have hmain2 : Indexer.mainStep true dm m f true (Indexer.docxPathOf f.path) = some dm := by
    simp [Indexer.mainStep, hext, upd, hfp, Ne.symm hfp]
  by_cases hex : Indexer.docxPathOf p ∈ fs
  · have hres : Indexer.convert_doc_to_docx true true wordConverts fs p =
        (some (Indexer.docxPathOf p), fs.filter (fun q => !(q == p))) := by
      simp [Indexer.convert_doc_to_docx, hex]
    rw [hres]
    have hnotin : p ∉ fs.filter (fun q => !(q == p)) := by simp
    refine ⟨rfl, hnotin, ?_, ?_, hmain1, hmain2⟩
    · simp only [List.mem_filter]
      exact ⟨hex, by simpa using hne⟩
    · intro heq
      have heq2 : List.filter (fun q => !(q == p)) fs = fs := heq
      rw [← heq2] at hin
      exact hnotin hin
  · have hwc : wordConverts = true := by
      rcases hcap with h | h
      · exact absurd h hex
      · exact h
    have hres : Indexer.convert_doc_to_docx true true wordConverts fs p =
        (some (Indexer.docxPathOf p),
          Indexer.docxPathOf p :: fs.filter (fun q => !(q == p))) := by
      simp [Indexer.convert_doc_to_docx, hex, hwc]
    rw [hres]
    have hnotin : p ∉ Indexer.docxPathOf p :: fs.filter (fun q => !(q == p)) := by
      simp only [List.mem_cons, not_or]
      exact ⟨fun h => hne h.symm, by simp⟩
    refine ⟨rfl, hnotin, by simp, ?_, hmain1, hmain2⟩
    intro heq
    have heq2 : Indexer.docxPathOf p :: List.filter (fun q => !(q == p)) fs = fs := heq
    rw [← heq2] at hin
    exact hnotin hin

/-- C10 witness: converting /d/x.doc on the supported platform removes the
.doc, creates /d/x.docx, and the state key moves. -/
theorem C10_doc_conversion_mutates_witness :
    (Indexer.convert_doc_to_docx true true true ["/d/x.doc"] "/d/x.doc").1 =
        some (Indexer.docxPathOf "/d/x.doc") ∧
    "/d/x.doc" ∉ (Indexer.convert_doc_to_docx true true true ["/d/x.doc"] "/d/x.doc").2 ∧
    Indexer.docxPathOf "/d/x.doc" ∈
      (Indexer.convert_doc_to_docx true true true ["/d/x.doc"] "/d/x.doc").2 ∧
    (Indexer.convert_doc_to_docx true true true ["/d/x.doc"] "/d/x.doc").2 ≠ ["/d/x.doc"] ∧
    Indexer.mainStep true 7 (fun _ => none)
      ⟨"/d/x.doc", "x.doc", ".doc", [1], 5, "d"⟩ true "/d/x.doc" = none ∧
    Indexer.mainStep true 7 (fun _ => none)
      ⟨"/d/x.doc", "x.doc", ".doc", [1], 5, "d"⟩ true
      (Indexer.docxPathOf "/d/x.doc") = some 7 :=
  C10_doc_conversion_mutates true ["/d/x.doc"] "/d/x.doc"
    ⟨"/d/x.doc", "x.doc", ".doc", [1], 5, "d"⟩ 7 (fun _ => none)
    (by decide) (by decide) (Or.inr rfl) rfl (by decide)

/-! ## C5 — stem priority of the ingest scan -/

theorem setVariant_of_docx (f : Ingest.IngFile) (h : f.ext = ".docx") (v : Ingest.Variants) :
    Ingest.setVariant v f = ⟨some f, v.pdf⟩ := by
  simp [Ingest.setVariant, h]

theorem setVariant_of_not_docx (f : Ingest.IngFile) (h : f.ext ≠ ".docx")
    (v : Ingest.Variants) : Ingest.setVariant v f = ⟨v.docx, some f⟩ := by
  rw [Ingest.setVariant, if_neg (by simpa using h)]

theorem insertVariant_good (f : Ingest.IngFile) (hf : f.ext = ".docx" ∨ f.ext = ".pdf") :
    ∀ m : List (String × Ingest.Variants), Ingest.GoodMap m →
      Ingest.GoodMap (Ingest.insertVariant m f) := by
  intro m
  induction m with
  | nil =>
    intro _ sv hsv
    simp only [Ingest.insertVariant, List.mem_singleton] at hsv
    subst hsv
    rcases hf with h | h
    · rw [setVariant_of_docx f h]
      exact ⟨fun x hx => by cases hx; exact ⟨rfl, h⟩, fun x hx => by simp at hx⟩
    · rw [setVariant_of_not_docx f (by rw [h]; decide)]
      exact ⟨fun x hx => by simp at hx, fun x hx => by cases hx; exact ⟨rfl, h⟩⟩
  | cons sv0 rest ih =>
    intro hm sv hsv
    obtain ⟨s, v⟩ := sv0
    have hhead := hm (s, v) (by simp)
    have htail : Ingest.GoodMap rest := fun e he => hm e (List.mem_cons_of_mem _ he)
    by_cases hs : (s == f.stem) = true
    · have hseq : s = f.stem := by simpa using hs
      rw [Ingest.insertVariant, if_pos hs] at hsv
      rcases List.mem_cons.mp hsv with h | h
      · subst h
        rcases hf with hx | hx
        · rw [setVariant_of_docx f hx]
          exact ⟨fun x hxx => by cases hxx; exact ⟨hseq.symm, hx⟩, hhead.2⟩
        · rw [setVariant_of_not_docx f (by rw [hx]; decide)]
          exact ⟨hhead.1, fun x hxx => by cases hxx; exact ⟨hseq.symm, hx⟩⟩
      · exact htail sv h
    · rw [Ingest.insertVariant, if_neg hs] at hsv
      rcases List.mem_cons.mp hsv with h | h
      · subst h
        exact hhead
      · exact ih htail sv h

theorem insertVariant_mem_keys (f : Ingest.IngFile) :
    ∀ (m : List (String × Ingest.Variants)) (x : String),
      x ∈ Ingest.mapKeys (Ingest.insertVariant m f) → x ∈ Ingest.mapKeys m ∨ x = f.stem := by
  intro m
  induction m with
  | nil =>
    intro x hx
    simp only [Ingest.insertVariant, Ingest.mapKeys, List.map_cons, List.map_nil,
      List.mem_singleton] at hx
    exact Or.inr hx
  | cons sv0 rest ih =>
    intro x hx
    obtain ⟨s, v⟩ := sv0
    by_cases hs : (s == f.stem) = true
    · rw [Ingest.insertVariant, if_pos hs] at hx
      simp only [Ingest.mapKeys, List.map_cons, List.mem_cons] at hx ⊢
      rcases hx with h | h
      · exact Or.inl (Or.inl h)
      · exact Or.inl (Or.inr h)
    · rw [Ingest.insertVariant, if_neg hs] at hx
      simp only [Ingest.mapKeys, List.map_cons, List.mem_cons] at hx ⊢
      rcases hx with h | h
      · exact Or.inl (Or.inl h)
      · rcases ih x h with h2 | h2
        · exact Or.inl (Or.inr h2)
        · exact Or.inr h2

theorem insertVariant_keys_nodup (f : Ingest.IngFile) :
    ∀ m : List (String × Ingest.Variants), (Ingest.mapKeys m).Nodup →
      (Ingest.mapKeys (Ingest.insertVariant m f)).Nodup := by
  intro m
  induction m with
  | nil => intro _; simp [Ingest.insertVariant, Ingest.mapKeys]
  | cons sv0 rest ih =>
    intro hnd
    obtain ⟨s, v⟩ := sv0
    simp only [Ingest.mapKeys, List.map_cons, List.nodup_cons] at hnd
    by_cases hs : (s == f.stem) = true
    · rw [Ingest.insertVariant, if_pos hs]
      simp only [Ingest.mapKeys, List.map_cons, List.nodup_cons]
      exact hnd
    · rw [Ingest.insertVariant, if_neg hs]
      simp only [Ingest.mapKeys, List.map_cons, List.nodup_cons]
      refine ⟨fun hmem => ?_, ih hnd.2⟩
      rcases insertVariant_mem_keys f rest s hmem with h | h
      · exact hnd.1 h
      · exact absurd h (by simpa using hs)

theorem insertVariant_docxAt_mono (f : Ingest.IngFile) (s : String) :
    ∀ m : List (String × Ingest.Variants), Ingest.DocxAt m s →
      Ingest.DocxAt (Ingest.insertVariant m f) s := by
  intro m
  induction m with
  | nil => rintro ⟨v, hv, _⟩; simp at hv
  | cons sv0 rest ih =>
    rintro ⟨v, hv, hvd⟩
    obtain ⟨s0, v0⟩ := sv0
    by_cases hs : (s0 == f.stem) = true
    · rw [Ingest.insertVariant, if_pos hs]
      rcases List.mem_cons.mp hv with h | h
      · cases h
        refine ⟨Ingest.setVariant v f, by simp, ?_⟩
        by_cases hfx : (f.ext == ".docx") = true
        · simp [Ingest.setVariant, hfx]
        · simpa [Ingest.setVariant, hfx] using hvd
      · exact ⟨v, List.mem_cons_of_mem _ h, hvd⟩
    · rw [Ingest.insertVariant, if_neg hs]
      rcases List.mem_cons.mp hv with h | h
      · exact ⟨v, List.mem_cons.mpr (Or.inl h), hvd⟩
      · obtain ⟨w, hw, hwd⟩ := ih ⟨v, h, hvd⟩
        exact ⟨w, List.mem_cons_of_mem _ hw, hwd⟩

theorem insertVariant_docxAt_self (f : Ingest.IngFile) (hfx : f.ext = ".docx") :
    ∀ m : List (String × Ingest.Variants), Ingest.DocxAt (Ingest.insertVariant m f) f.stem := by
  intro m
  induction m with
  | nil =>
    refine ⟨Ingest.setVariant ⟨none, none⟩ f, by simp [Ingest.insertVariant], ?_⟩
    rw [setVariant_of_docx f hfx]
    simp
  | cons sv0 rest ih =>
    obtain ⟨s, v⟩ := sv0
    by_cases hs : (s == f.stem) = true
    · have hseq : s = f.stem := by simpa using hs
      rw [Ingest.insertVariant, if_pos hs]
      refine ⟨Ingest.setVariant v f, ?_, ?_⟩
      · rw [hseq]
        simp
      · rw [setVariant_of_docx f hfx]
        simp
    · rw [Ingest.insertVariant, if_neg hs]
      obtain ⟨w, hw, hwd⟩ := ih
      exact ⟨w, List.mem_cons_of_mem _ hw, hwd⟩

theorem files_map_go_good :
    ∀ (fs : List Ingest.IngFile) (m : List (String × Ingest.Variants)),
      Ingest.GoodMap m → Ingest.GoodMap (Ingest.files_map_go fs m) := by
  intro fs
  induction fs with
  | nil => intro m hm; exact hm
  | cons f rest ih =>
    intro m hm
    rw [Ingest.files_map_go]
    by_cases hc : (f.ext == ".docx" || f.ext == ".pdf") = true
    · rw [if_pos hc]
      have hf : f.ext = ".docx" ∨ f.ext = ".pdf" := by
        rcases Bool.or_eq_true_iff.mp hc with h | h
        · exact Or.inl (by simpa using h)
        · exact Or.inr (by simpa using h)
      exact ih _ (insertVariant_good f hf m hm)
    · rw [if_neg hc]
      exact ih _ hm

theorem files_map_go_keys_nodup :
    ∀ (fs : List Ingest.IngFile) (m : List (String × Ingest.Variants)),
      (Ingest.mapKeys m).Nodup → (Ingest.mapKeys (Ingest.files_map_go fs m)).Nodup := by
  intro fs
  induction fs with
  | nil => intro m hm; exact hm
  | cons f rest ih =>
    intro m hm
    rw [Ingest.files_map_go]
    by_cases hc : (f.ext == ".docx" || f.ext == ".pdf") = true
    · rw [if_pos hc]
      exact ih _ (insertVariant_keys_nodup f m hm)
    · rw [if_neg hc]
      exact ih _ hm

theorem files_map_go_docxAt_mono (s : String) :
    ∀ (fs : List Ingest.IngFile) (m : List (String × Ingest.Variants)),
      Ingest.DocxAt m s → Ingest.DocxAt (Ingest.files_map_go fs m) s := by
  intro fs
  induction fs with
  | nil => intro m hm; exact hm
  | cons f rest ih =>
    intro m hm
    rw [Ingest.files_map_go]
    by_cases hc : (f.ext == ".docx" || f.ext == ".pdf") = true
    · rw [if_pos hc]
      exact ih _ (insertVariant_docxAt_mono f s m hm)
    · rw [if_neg hc]
      exact ih _ hm

theorem files_map_go_docxAt (d : Ingest.IngFile) (hdx : d.ext = ".docx") :
    ∀ (fs : List Ingest.IngFile) (m : List (String × Ingest.Variants)),
      d ∈ fs → Ingest.DocxAt (Ingest.files_map_go fs m) d.stem := by
  intro fs
  induction fs with
  | nil => intro m hm; simp at hm
  | cons f rest ih =>
    intro m hm
    rw [Ingest.files_map_go]
    rcases List.mem_cons.mp hm with h | h
    · subst h
      have hc : (d.ext == ".docx" || d.ext == ".pdf") = true := by
        rw [hdx]
        decide
      rw [if_pos hc]
      exact files_map_go_docxAt_mono d.stem rest _ (insertVariant_docxAt_self d hdx m)
    · by_cases hc : (f.ext == ".docx" || f.ext == ".pdf") = true
      · rw [if_pos hc]
        exact ih _ h
      · rw [if_neg hc]
        exact ih _ h

theorem assoc_keys_nodup_unique (s : String) (a b : Ingest.Variants) :
    ∀ m : List (String × Ingest.Variants), (Ingest.mapKeys m).Nodup →
      (s, a) ∈ m → (s, b) ∈ m → a = b := by
  intro m
  induction m with
  | nil => intro _ ha; simp at ha
  | cons sv0 rest ih =>
    intro hnd ha hb
    obtain ⟨s0, v0⟩ := sv0
    simp only [Ingest.mapKeys, List.map_cons, List.nodup_cons] at hnd
    rcases List.mem_cons.mp ha with h1 | h1 <;> rcases List.mem_cons.mp hb with h2 | h2
    · cases h1
      cases h2
      rfl
    · cases h1
      exact absurd (List.mem_map_of_mem Prod.fst h2) (by simpa [Ingest.mapKeys] using hnd.1)
    · cases h2
      exact absurd (List.mem_map_of_mem Prod.fst h1) (by simpa [Ingest.mapKeys] using hnd.1)
    · exact ih hnd.2 h1 h2

/-- C5 (amended, restricted to the rag-ingest pipeline): when a .docx file
and a .pdf file share the same stem — in particular in the same directory —
the scan's final file list never contains that pdf, and it does contain a
.docx file of that stem; the skipped pdf is therefore never processed and
never produces vector points. (The rag-indexer pipeline applies no stem
priority and indexes both variants; see the counterexample.) -/
theorem C5_ingest_stem_priority (files : List Ingest.IngFile) (d p : Ingest.IngFile)
    (hd : d ∈ files) (hp : p ∈ files) (hdx : d.ext = ".docx") (hpx : p.ext = ".pdf")
    (hstem : d.stem = p.stem) :
    p ∉ Ingest.final_files files ∧
    ∃ q ∈ Ingest.final_files files, q.stem = p.stem ∧ q.ext = ".docx" := by
  have hgood : Ingest.GoodMap (Ingest.files_map files) :=
    files_map_go_good files [] (fun sv hsv => by simp at hsv)
  have hnd : (Ingest.mapKeys (Ingest.files_map files)).Nodup :=
    files_map_go_keys_nodup files [] (by simp [Ingest.mapKeys])
  have hdat : Ingest.DocxAt (Ingest.files_map files) d.stem :=
    files_map_go_docxAt d hdx files [] hd
  constructor
  · intro hmem
    obtain ⟨sv, hsv, hpick⟩ := List.mem_filterMap.mp hmem
    obtain ⟨s, v⟩ := sv
    have hg := hgood (s, v) hsv
    rcases hvd : v.docx with _ | x
    · have hvp : v.pdf = some p := by
        rw [Ingest.pickVariant, hvd] at hpick
        exact hpick
      obtain ⟨hps, _⟩ := hg.2 p hvp
      obtain ⟨w, hwmem, hwd⟩ := hdat
      rw [hstem, hps] at hwmem
      have := assoc_keys_nodup_unique s v w (Ingest.files_map files) hnd hsv hwmem
      rw [← this] at hwd
      exact hwd hvd
    · rw [Ingest.pickVariant, hvd] at hpick
      cases hpick
      obtain ⟨_, hxe⟩ := hg.1 p hvd
      rw [hpx] at hxe
      exact absurd hxe (by decide)
  · obtain ⟨w, hwmem, hwd⟩ := hdat
    rcases hxd : w.docx with _ | x
    · exact absurd hxd hwd
    · have hg := hgood (d.stem, w) hwmem
      obtain ⟨hxs, hxe⟩ := hg.1 x hxd
      refine ⟨x, ?_, by rw [hxs, ← hstem], hxe⟩
      refine List.mem_filterMap.mpr ⟨(d.stem, w), hwmem, ?_⟩
      rw [Ingest.pickVariant, hxd]

/-- C5 witness: a tree with report.docx and report.pdf in the same directory
selects only the docx. -/
theorem C5_ingest_stem_priority_witness :
    (⟨"/d/report.pdf", "report.pdf", "report", ".pdf", [2], 1⟩ : Ingest.IngFile) ∉
      Ingest.final_files
        [⟨"/d/report.docx", "report.docx", "report", ".docx", [1], 1⟩,
         ⟨"/d/report.pdf", "report.pdf", "report", ".pdf", [2], 1⟩] ∧
    ∃ q ∈ Ingest.final_files
        [⟨"/d/report.docx", "report.docx", "report", ".docx", [1], 1⟩,
         ⟨"/d/report.pdf", "report.pdf", "report", ".pdf", [2], 1⟩],
      q.stem = (⟨"/d/report.pdf", "report.pdf", "report", ".pdf", [2], 1⟩ :
        Ingest.IngFile).stem ∧ q.ext = ".docx" :=
  C5_ingest_stem_priority
    [⟨"/d/report.docx", "report.docx", "report", ".docx", [1], 1⟩,
     ⟨"/d/report.pdf", "report.pdf", "report", ".pdf", [2], 1⟩]
    ⟨"/d/report.docx", "report.docx", "report", ".docx", [1], 1⟩
    ⟨"/d/report.pdf", "report.pdf", "report", ".pdf", [2], 1⟩
    (by decide) (by decide) rfl rfl rfl

/-- C5 counterexample: the rag-indexer pipeline applies no stem priority —
with report.docx and report.pdf side by side and empty state,
find_changed_files queues both, and a successful pass over the pdf produces
an upserted vector point, refuting the claim that the pdf variant is skipped
and never produces points. -/
theorem C5_counterexample_indexer_indexes_pdf :
    Indexer.find_changed_files (fun _ => none)
        [⟨"/d/report.docx", "report.docx", ".docx", [1], 1, "d"⟩,
         ⟨"/d/report.pdf", "report.pdf", ".pdf", [2], 1, "d"⟩] =
      [⟨"/d/report.docx", "report.docx", ".docx", [1], 1, "d"⟩,
       ⟨"/d/report.pdf", "report.pdf", ".pdf", [2], 1, "d"⟩] ∧
    Indexer.process_document true true (fun _ => some "T") (fun _ => ["T"]) (fun _ => some [3])
        (fun i => i) (fun _ => true) 32
        ⟨"/d/report.pdf", "report.pdf", ".pdf", [2], 1, "d"⟩ =
      ⟨true, [Indexer.VOp.del "report.pdf",
        Indexer.VOp.upsert [⟨0, [3], [("text", PVal.s "T"),
          ("source_file", PVal.s "report.pdf"), ("category", PVal.s "d")]⟩]]⟩ := by
  exact ⟨by decide, by decide⟩

/-! ## C9 — the delete-first discipline of process_document -/

theorem create_embeddings_batch_source (embed : String → Option (List Int)) (gen : Nat → Nat)
    (fn cat : String) :
    ∀ (chunks : List String) (i : Nat) (pts : List PointStruct),
      Indexer.create_embeddings_batch embed gen fn cat chunks i = some pts →
      ∀ pt ∈ pts, pointSource pt = some (PVal.s fn) := by
  intro chunks
  induction chunks with
  | nil =>
    intro i pts h pt hpt
    simp only [Indexer.create_embeddings_batch, Option.some.injEq] at h
    subst h
    simp at hpt
  | cons c rest ih =>
    intro i pts h pt hpt
    simp only [Indexer.create_embeddings_batch] at h
    cases hc : embed c with
    | none => rw [hc] at h; simp at h
    | some v =>
      rw [hc] at h
      cases hr : Indexer.create_embeddings_batch embed gen fn cat rest (i + 1) with
      | none => rw [hr] at h; simp at h
      | some ps =>
        rw [hr] at h
        simp only [Option.some.injEq] at h
        subst h
        rcases List.mem_cons.mp hpt with hh | hh
        · subst hh
          simp [pointSource, List.lookup]
        · exact ih (i + 1) ps hr pt hh

theorem applyVOps_upserts (bs : List (List PointStruct)) :
    ∀ store, Indexer.applyVOps store (bs.map Indexer.VOp.upsert) = store ++ bs.flatten := by
  induction bs with
  | nil => intro store; simp [Indexer.applyVOps]
  | cons b rest ih =>
    intro store
    simp only [List.map_cons, Indexer.applyVOps, List.foldl_cons]
    have := ih (store ++ b)
    simp only [Indexer.applyVOps] at this
    rw [show Indexer.applyVOp store (Indexer.VOp.upsert b) = store ++ b from rfl, this,
      List.flatten_cons, List.append_assoc]

theorem docPointsOf_append (s t : List PointStruct) (fn : String) :
    docPointsOf (s ++ t) fn = docPointsOf s fn ++ docPointsOf t fn := by
  simp [docPointsOf, List.filter_append]

theorem docPointsOf_del (store : List PointStruct) (fn : String) :
    docPointsOf (Indexer.applyVOp store (Indexer.VOp.del fn)) fn = [] := by
  simp only [docPointsOf, Indexer.applyVOp, List.filter_filter]
  refine List.filter_eq_nil_iff.mpr ?_
  intro pt _
  cases h : pointSource pt == some (PVal.s fn) <;> simp [h]

theorem docPointsOf_all_tagged (ps : List PointStruct) (fn : String)
    (h : ∀ pt ∈ ps, pointSource pt = some (PVal.s fn)) : docPointsOf ps fn = ps := by
  refine List.filter_eq_self.mpr ?_
  intro pt hpt
  simp [h pt hpt]

theorem applyVOps_del_upserts (fn : String) (bs : List (List PointStruct))
    (store : List PointStruct)
    (hsrc : ∀ l ∈ bs, ∀ pt ∈ l, pointSource pt = some (PVal.s fn)) :
    docPointsOf (Indexer.applyVOps store (Indexer.VOp.del fn :: bs.map Indexer.VOp.upsert)) fn
      = bs.flatten := by
  have h1 : Indexer.applyVOps store (Indexer.VOp.del fn :: bs.map Indexer.VOp.upsert)
      = Indexer.applyVOp store (Indexer.VOp.del fn) ++ bs.flatten := by
    rw [Indexer.applyVOps, List.foldl_cons]
    exact applyVOps_upserts bs _
  rw [h1, docPointsOf_append, docPointsOf_del, List.nil_append]
  refine docPointsOf_all_tagged _ fn ?_
  intro pt hpt
  obtain ⟨l, hl, hptl⟩ := List.mem_flatten.mp hpt
  exact hsrc l hl pt hptl

theorem range_map_take_flatten (b : Nat) (pts : List PointStruct) :
    ∀ j, ((List.range j).map (fun i => (pts.drop (i * b)).take b)).flatten
      = pts.take (j * b) := by
  intro j
  induction j with
  | zero => simp
  | succ j ih =>
    rw [List.range_succ]
    simp only [List.map_append, List.flatten_append, List.map_cons, List.map_nil,
      List.flatten_cons, List.flatten_nil, List.append_nil]
    rw [ih, ← List.take_add]
    congr 1
    ring

theorem toBatches_take_flatten (b : Nat) (pts : List PointStruct) (k : Nat) :
    ((Indexer.toBatches b pts).take k).flatten
      = pts.take (min k (ceilDiv pts.length b) * b) := by
  rw [Indexer.toBatches, ← List.map_take, List.take_range]
  exact range_map_take_flatten b pts (min k (ceilDiv pts.length b))

theorem toBatches_length (b : Nat) (pts : List PointStruct) :
    (Indexer.toBatches b pts).length = ceilDiv pts.length b := by
  simp [Indexer.toBatches]

theorem toBatches_mem_subset (b : Nat) (pts : List PointStruct) (l : List PointStruct)
    (hl : l ∈ Indexer.toBatches b pts) : ∀ pt ∈ l, pt ∈ pts := by
  rw [Indexer.toBatches] at hl
  obtain ⟨j, _, hj⟩ := List.mem_map.mp hl
  intro pt hpt
  rw [← hj] at hpt
  exact List.drop_subset _ _ (List.take_subset _ _ hpt)

theorem applyVOps_delOps_upserts (deleteOk : Bool) (fn : String)
    (bs : List (List PointStruct)) (store : List PointStruct)
    (hsrc : ∀ l ∈ bs, ∀ pt ∈ l, pointSource pt = some (PVal.s fn)) :
    docPointsOf (Indexer.applyVOps store
        ((if deleteOk then [Indexer.VOp.del fn] else []) ++ bs.map Indexer.VOp.upsert)) fn
      = (if deleteOk then [] else docPointsOf store fn) ++ bs.flatten := by
  cases deleteOk with
  | true => simpa using applyVOps_del_upserts fn bs store hsrc
  | false =>
    have h1 : ((if (false : Bool) then [Indexer.VOp.del fn] else [])
        ++ bs.map Indexer.VOp.upsert) = bs.map Indexer.VOp.upsert := by simp
    have h2 : (if (false : Bool) then ([] : List PointStruct) else docPointsOf store fn)
        = docPointsOf store fn := by simp
    rw [h1, h2, Indexer.applyVOps]
    rw [show List.foldl Indexer.applyVOp store (bs.map Indexer.VOp.upsert)
        = Indexer.applyVOps store (bs.map Indexer.VOp.upsert) from rfl]
    rw [applyVOps_upserts, docPointsOf_append]
    congr 1
    refine docPointsOf_all_tagged _ fn ?_
    intro pt hpt
    obtain ⟨l, hl, hptl⟩ := List.mem_flatten.mp hpt
    exact hsrc l hl pt hptl

/-- C9 (amended, for non-legacy files): process_document always issues the
delete of the document's existing points as its first vector-store call,
before conversion, extraction, chunking or embedding are attempted — but the
source swallows a failure of that delete call (upload.py lines 87-101) and
the pass continues. On any failure main leaves the document's state entry
unchanged. When the delete took effect, a pass whose only effective call was
the delete (every failure before the upload stage) leaves zero points for
the document, and in general the stored points are a prefix of the new
version's point list — full on success, possibly partial when the batched
upload fails mid-way (so an upload failure can leave some new points, not
zero). When the delete call failed silently, the document's old points all
remain in the store, beneath whatever prefix of the new points was
uploaded. -/
theorem C9_indexer_delete_first_prefix_store
    (deleteOk convertOk : Bool) (extract : String → Option String)
    (split : String → List String)
    (embed : String → Option (List Int)) (gen : Nat → Nat) (upsertOk : Nat → Bool)
    (batchSize : Nat) (f : Indexer.ScanFile) (store : List PointStruct)
    (dx : Bool) (dm : Nat) (m : String → Option Nat)
    (hext : f.ext = ".docx" ∨ f.ext = ".pdf") :
    (deleteOk = true →
      (Indexer.process_document deleteOk convertOk extract split embed gen upsertOk batchSize
        f).ops.head? = some (Indexer.VOp.del f.base)) ∧
    ((Indexer.process_document deleteOk convertOk extract split embed gen upsertOk batchSize
        f).success = false →
      Indexer.mainStep dx dm m f
        (Indexer.process_document deleteOk convertOk extract split embed gen upsertOk batchSize
          f).success = m) ∧
    (deleteOk = true →
      (Indexer.process_document deleteOk convertOk extract split embed gen upsertOk batchSize
          f).ops = [Indexer.VOp.del f.base] →
      docPointsOf (Indexer.applyVOps store
        (Indexer.process_document deleteOk convertOk extract split embed gen upsertOk batchSize
          f).ops) f.base = []) ∧
    ∃ pts k,
      (∀ pt ∈ pts, pointSource pt = some (PVal.s f.base)) ∧
      (Indexer.process_document deleteOk convertOk extract split embed gen upsertOk batchSize
          f).ops
        = (if deleteOk then [Indexer.VOp.del f.base] else []) ++
          ((Indexer.toBatches batchSize pts).take k).map Indexer.VOp.upsert ∧
      docPointsOf (Indexer.applyVOps store
          (Indexer.process_document deleteOk convertOk extract split embed gen upsertOk
            batchSize f).ops) f.base
        = (if deleteOk then [] else docPointsOf store f.base)
            ++ pts.take (min k (ceilDiv pts.length batchSize) * batchSize) ∧
      ((Indexer.process_document deleteOk convertOk extract split embed gen upsertOk batchSize
          f).success = true → k = ceilDiv pts.length batchSize) := by
  have hchar : ∃ pts k,
      (∀ pt ∈ pts, pointSource pt = some (PVal.s f.base)) ∧
      (Indexer.process_document deleteOk convertOk extract split embed gen upsertOk batchSize
          f).ops
        = (if deleteOk then [Indexer.VOp.del f.base] else []) ++
          ((Indexer.toBatches batchSize pts).take k).map Indexer.VOp.upsert ∧
      ((Indexer.process_document deleteOk convertOk extract split embed gen upsertOk batchSize
          f).success = true → k = ceilDiv pts.length batchSize) := by
    cases hextr : extract f.path with
    | none =>
      refine ⟨[], 0, by simp, ?_, ?_⟩
      · rcases hext with hx | hx <;> simp [Indexer.process_document, hx, hextr]
      · rcases hext with hx | hx <;> simp [Indexer.process_document, hx, hextr]
    | some text =>
      cases hchunks : split text with
      | nil =>
        refine ⟨[], 0, by simp, ?_, ?_⟩
        · rcases hext with hx | hx <;> simp [Indexer.process_document, hx, hextr, hchunks]
        · rcases hext with hx | hx <;> simp [Indexer.process_document, hx, hextr, hchunks]
      | cons c0 cs =>
        cases hbatch : Indexer.create_embeddings_batch embed gen f.base f.category
            (c0 :: cs) 0 with
        | none =>
          refine ⟨[], 0, by simp, ?_, ?_⟩
          · rcases hext with hx | hx <;>
              simp [Indexer.process_document, hx, hextr, hchunks, hbatch]
          · rcases hext with hx | hx <;>
              simp [Indexer.process_document, hx, hextr, hchunks, hbatch]
        | some pts =>
          have htags : ∀ pt ∈ pts, pointSource pt = some (PVal.s f.base) :=
            create_embeddings_batch_source embed gen f.base f.category (c0 :: cs) 0 pts hbatch
          by_cases hall :
              (List.range (Indexer.toBatches batchSize pts).length).all upsertOk = true
          · refine ⟨pts, ceilDiv pts.length batchSize, htags, ?_, fun _ => rfl⟩
            rcases hext with hx | hx <;>
              simp [Indexer.process_document, hx, hextr, hchunks, hbatch, hall,
                ← toBatches_length batchSize pts, List.take_length]
          · refine ⟨pts, Indexer.okPrefixLen upsertOk (Indexer.toBatches batchSize pts).length,
              htags, ?_, ?_⟩
            · rcases hext with hx | hx <;>
                simp [Indexer.process_document, hx, hextr, hchunks, hbatch, hall]
            · intro hs
              exfalso
              rcases hext with hx | hx <;>
                simp [Indexer.process_document, hx, hextr, hchunks, hbatch, hall] at hs
  obtain ⟨pts, k, htags, hops, hsucc⟩ := hchar
  have hbtags : ∀ l ∈ (Indexer.toBatches batchSize pts).take k,
      ∀ pt ∈ l, pointSource pt = some (PVal.s f.base) := by
    intro l hl pt hpt
    exact htags pt (toBatches_mem_subset batchSize pts l (List.take_subset _ _ hl) pt hpt)
  have hpoints : docPointsOf (Indexer.applyVOps store
      (Indexer.process_document deleteOk convertOk extract split embed gen upsertOk batchSize
        f).ops) f.base
      = (if deleteOk then [] else docPointsOf store f.base)
          ++ pts.take (min k (ceilDiv pts.length batchSize) * batchSize) := by
    rw [hops, applyVOps_delOps_upserts deleteOk f.base _ store hbtags, toBatches_take_flatten]
  refine ⟨?_, ?_, ?_, pts, k, htags, hops, hpoints, hsucc⟩
  · intro hd
    rw [hops, hd]
    rfl
  · intro h
    rw [h]
    rfl
  · intro _ h
    rw [h]
    have := applyVOps_del_upserts f.base [] store (by simp)
    simpa using this

/-- C9 witness: a .docx file whose delete took effect and whose upload
succeeds in full — delete first, then the whole new point set stored. -/
theorem C9_indexer_delete_first_prefix_store_witness :
    ((Indexer.process_document true true (fun _ => some "T") (fun _ => ["a"])
        (fun _ => some [1]) (fun i => i) (fun _ => true) 32
        ⟨"/d/x.docx", "x.docx", ".docx", [1], 5, "d"⟩).ops.head?
      = some (Indexer.VOp.del "x.docx")) ∧
    ∃ pts k,
      (∀ pt ∈ pts, pointSource pt = some (PVal.s "x.docx")) ∧
      (Indexer.process_document true true (fun _ => some "T") (fun _ => ["a"])
          (fun _ => some [1]) (fun i => i) (fun _ => true) 32
          ⟨"/d/x.docx", "x.docx", ".docx", [1], 5, "d"⟩).ops
        = Indexer.VOp.del "x.docx" ::
          ((Indexer.toBatches 32 pts).take k).map Indexer.VOp.upsert := by
  obtain ⟨h1, _, _, pts, k, htags, hops, _, _⟩ :=
    C9_indexer_delete_first_prefix_store true true (fun _ => some "T") (fun _ => ["a"])
      (fun _ => some [1]) (fun i => i) (fun _ => true) 32
      ⟨"/d/x.docx", "x.docx", ".docx", [1], 5, "d"⟩ [] false 0 (fun _ => none)
      (Or.inl rfl)
  exact ⟨h1 rfl, pts, k, htags, hops⟩

/-- C9 counterexample: a failure during the batched upload does not leave
zero points for the document — with the delete effective, batch size 1, two
chunks and the second upsert call failing, the pass fails but the first new
point is already in the store, refuting the claim that every post-discovery
failure leaves the vector store with zero points for the document. -/
theorem C9_counterexample_partial_upload_leaves_points :
    (Indexer.process_document true true (fun _ => some "T") (fun _ => ["a", "b"])
        (fun _ => some [1]) (fun i => i) (fun j => j == 0) 1
        ⟨"/d/x.docx", "x.docx", ".docx", [1], 5, "d"⟩).success = false ∧
    docPointsOf
      (Indexer.applyVOps []
        (Indexer.process_document true true (fun _ => some "T") (fun _ => ["a", "b"])
          (fun _ => some [1]) (fun i => i) (fun j => j == 0) 1
          ⟨"/d/x.docx", "x.docx", ".docx", [1], 5, "d"⟩).ops) "x.docx" =
      [⟨0, [1], [("text", PVal.s "a"), ("source_file", PVal.s "x.docx"),
        ("category", PVal.s "d")]⟩] := by
  exact ⟨by decide, by decide⟩

/-! ## C4 — replace-by-document consistency -/

theorem prefixPts_nodup (v m : Nat) : (Indexer.Replace.prefixPts v m).Nodup :=
  (List.nodup_range m).map fun a b hab => by
    have : a = b := congrArg Indexer.Replace.Pt.idx hab
    exact this

theorem prefixPts_version (v m : Nat) :
    ∀ p ∈ Indexer.Replace.prefixPts v m, p.version = v := by
  intro p hp
  obtain ⟨i, _, hi⟩ := List.mem_map.mp hp
  rw [← hi]

theorem prefixPts_append (v x y : Nat) :
    Indexer.Replace.prefixPts v (x + y)
      = Indexer.Replace.prefixPts v x ++ (List.range y).map (fun j => ⟨v, x + j⟩) := by
  unfold Indexer.Replace.prefixPts
  rw [List.range_add, List.map_append, List.map_map]
  rfl

theorem lt_of_lt_ceilDiv (t n b : Nat) (h : t < ceilDiv n b) : t * b < n := by
  cases Nat.eq_zero_or_pos b with
  | inl hb =>
    subst hb
    rw [ceilDiv] at h
    omega
  | inr hb =>
    cases Nat.eq_zero_or_pos n with
    | inl hn =>
      subst hn
      rw [ceilDiv_zero_left] at h
      omega
    | inr hn =>
      rw [ceilDiv_eq_succ b n hb hn] at h
      have h1 : t ≤ (n - 1) / b := by omega
      have h2 : t * b ≤ (n - 1) / b * b := Nat.mul_le_mul_right b h1
      have h3 : (n - 1) / b * b ≤ n - 1 := Nat.div_mul_le_self (n - 1) b
      omega

theorem le_ceilDiv_mul (n b : Nat) (hb : 0 < b) : n ≤ ceilDiv n b * b := by
  cases Nat.eq_zero_or_pos n with
  | inl hn => omega
  | inr hn =>
    rw [ceilDiv_eq_succ b n hb hn, Nat.add_mul, Nat.one_mul]
    have hdm := Nat.div_add_mod (n - 1) b
    have hmod := Nat.mod_lt (n - 1) hb
    rw [Nat.mul_comm ((n - 1) / b) b]
    generalize hq : b * ((n - 1) / b) = P at hdm ⊢
    generalize hr : (n - 1) % b = R at hdm hmod
    omega

theorem runActs_append (s : Indexer.Replace.St) (xs ys : List Indexer.Replace.Act) :
    Indexer.Replace.runActs s (xs ++ ys)
      = Indexer.Replace.runActs (Indexer.Replace.runActs s xs) ys := by
  simp [Indexer.Replace.runActs, List.foldl_append]

theorem replace_batches_take (v n b : Nat) (c : Option Nat)
    (st : List Indexer.Replace.Pt) :
    ∀ t, t ≤ ceilDiv n b →
      Indexer.Replace.runActs ⟨st, c⟩
          (((List.range (ceilDiv n b)).map
            (fun j => Indexer.Replace.Act.upsertBatch v (j * b) (min b (n - j * b)))).take t)
        = ⟨st ++ Indexer.Replace.prefixPts v (min (t * b) n), c⟩ := by
  intro t
  induction t with
  | zero =>
    intro _
    simp [Indexer.Replace.runActs, Indexer.Replace.prefixPts]
  | succ t ih =>
    intro ht
    have htlt : t < ceilDiv n b := by omega
    have htb : t * b < n := lt_of_lt_ceilDiv t n b htlt
    have hmin : min (t * b) n = t * b := by omega
    rw [List.take_succ]
    have hget : ((List.range (ceilDiv n b)).map
        (fun j => Indexer.Replace.Act.upsertBatch v (j * b) (min b (n - j * b))))[t]? =
        some (Indexer.Replace.Act.upsertBatch v (t * b) (min b (n - t * b))) := by
      rw [List.getElem?_map, List.getElem?_range htlt]
      rfl
    rw [hget, Option.toList_some, runActs_append, ih (by omega)]
    have happ : Indexer.Replace.runActs
        ⟨st ++ Indexer.Replace.prefixPts v (min (t * b) n), c⟩
        [Indexer.Replace.Act.upsertBatch v (t * b) (min b (n - t * b))]
        = ⟨(st ++ Indexer.Replace.prefixPts v (min (t * b) n)) ++
            (List.range (min b (n - t * b))).map (fun j => ⟨v, t * b + j⟩), c⟩ := rfl
    rw [happ, hmin, List.append_assoc, ← prefixPts_append]
    have harith : t * b + min b (n - t * b) = min (Nat.succ t * b) n := by
      have h2 : Nat.succ t * b = t * b + b := by
        rw [Nat.succ_eq_add_one]
        ring
      rw [h2]
      generalize t * b = X at htb ⊢
      omega
    rw [harith]

theorem passActs_length (v n b : Nat) :
    (Indexer.Replace.passActs true v n b).length = ceilDiv n b + 2 := by
  simp [Indexer.Replace.passActs]

theorem passActs_true_eq (v n b : Nat) :
    Indexer.Replace.passActs true v n b
      = Indexer.Replace.Act.del ::
          ((List.range (ceilDiv n b)).map
            (fun j => Indexer.Replace.Act.upsertBatch v (j * b) (min b (n - j * b)))
            ++ [Indexer.Replace.Act.commit v]) := rfl

theorem passActs_false_eq (v n b : Nat) :
    Indexer.Replace.passActs false v n b
      = (List.range (ceilDiv n b)).map
          (fun j => Indexer.Replace.Act.upsertBatch v (j * b) (min b (n - j * b)))
          ++ [Indexer.Replace.Act.commit v] := rfl

theorem replace_batches_full (v n b : Nat) (c : Option Nat)
    (st : List Indexer.Replace.Pt) :
    Indexer.Replace.runActs ⟨st, c⟩
        ((List.range (ceilDiv n b)).map
          (fun j => Indexer.Replace.Act.upsertBatch v (j * b) (min b (n - j * b))))
      = ⟨st ++ Indexer.Replace.prefixPts v (min (ceilDiv n b * b) n), c⟩ := by
  have h := replace_batches_take v n b c st (ceilDiv n b) (le_refl _)
  rwa [List.take_of_length_le (by simp)] at h

theorem runActs_del (s : Indexer.Replace.St) (acts : List Indexer.Replace.Act) :
    Indexer.Replace.runActs s (Indexer.Replace.Act.del :: acts)
      = Indexer.Replace.runActs ⟨[], s.committed⟩ acts := rfl

theorem runPass_cases (s : Indexer.Replace.St) (v n b k : Nat) :
    (k = 0 ∧ Indexer.Replace.runPass s true v n b k = s) ∨
    (∃ m, m ≤ n ∧
      (Indexer.Replace.runPass s true v n b k
          = ⟨Indexer.Replace.prefixPts v m, s.committed⟩ ∨
       Indexer.Replace.runPass s true v n b k
          = ⟨Indexer.Replace.prefixPts v m, some v⟩)) := by
  cases k with
  | zero => exact Or.inl ⟨rfl, rfl⟩
  | succ k =>
    refine Or.inr ?_
    rw [Indexer.Replace.runPass, passActs_true_eq, List.take_succ_cons, runActs_del]
    by_cases hk : k ≤ ceilDiv n b
    · rw [List.take_append_of_le_length (by simpa using hk)]
      rw [replace_batches_take v n b s.committed [] k hk]
      exact ⟨min (k * b) n, Nat.min_le_right _ _, Or.inl rfl⟩
    · rw [List.take_of_length_le (by simp; omega)]
      rw [runActs_append, replace_batches_full v n b s.committed []]
      exact ⟨min (ceilDiv n b * b) n, Nat.min_le_right _ _, Or.inr rfl⟩

theorem runPass_one (s : Indexer.Replace.St) (v n b : Nat) :
    Indexer.Replace.runPass s true v n b 1 = ⟨[], s.committed⟩ := rfl

theorem runPass_full (s : Indexer.Replace.St) (v n b : Nat) (hb : 0 < b) :
    Indexer.Replace.runPass s true v n b (Indexer.Replace.passActs true v n b).length
      = ⟨Indexer.Replace.prefixPts v n, some v⟩ := by
  rw [Indexer.Replace.runPass, List.take_length, passActs_true_eq, runActs_del,
    runActs_append, replace_batches_full v n b s.committed []]
  have hmin : min (ceilDiv n b * b) n = n := by
    have := le_ceilDiv_mul n b hb
    omega
  rw [hmin]
  rfl

theorem runPass_full_noDel (s : Indexer.Replace.St) (v n b : Nat) (hb : 0 < b) :
    Indexer.Replace.runPass s false v n b (Indexer.Replace.passActs false v n b).length
      = ⟨s.store ++ Indexer.Replace.prefixPts v n, some v⟩ := by
  obtain ⟨st, c⟩ := s
  rw [Indexer.Replace.runPass, List.take_length, passActs_false_eq, runActs_append,
    replace_batches_full v n b c st]
  have hmin : min (ceilDiv n b * b) n = n := by
    have := le_ceilDiv_mul n b hb
    omega
  rw [hmin]
  rfl

theorem runTrace_shape (tr : List (Bool × Nat × Nat × Nat × Nat)) :
    (∀ e ∈ tr, e.1 = true) →
    ∀ s : Indexer.Replace.St, (∃ v0 m0, s.store = Indexer.Replace.prefixPts v0 m0) →
      ∃ v m, (Indexer.Replace.runTrace s tr).store = Indexer.Replace.prefixPts v m := by
  induction tr with
  | nil => intro _ s hs; exact hs
  | cons e rest ih =>
    intro hdel s hs
    rw [Indexer.Replace.runTrace]
    have he : e.1 = true := hdel e (by simp)
    rw [he]
    refine ih (fun e' he' => hdel e' (List.mem_cons_of_mem _ he')) _ ?_
    rcases runPass_cases s e.2.1 e.2.2.1 e.2.2.2.1 e.2.2.2.2 with
      ⟨_, heq⟩ | ⟨m, _, heq | heq⟩
    · rw [heq]; exact hs
    · exact ⟨e.2.1, m, by rw [heq]⟩
    · exact ⟨e.2.1, m, by rw [heq]⟩

/-- C4 (amended, restricted to the rag-indexer pipeline, and conditioned on
the delete calls taking effect — delete_old_document_records swallows its
exceptions, upload.py lines 87-101, so a silently failed delete escapes this
guarantee): over every history of passes whose delete calls all took effect,
each pass interrupted after any number of atomic steps, the store never
holds points of two different versions of the document at once and never
duplicate points for the same chunk; a pass interrupted right after its
effective delete leaves the document's point set empty with the committed
state unchanged; a subsequent completed pass over version v with n chunks
(positive batch size) leaves exactly the n points of version v, now
committed; and dually, a completed pass whose delete call failed silently
appends the new version's points on top of whatever the store already held,
so stale points survive it. (The rag-ingest pipeline can duplicate points
across runs even with every delete succeeding, when a run crashes between
its upsert and its state commit; see the counterexample.) -/
theorem C4_indexer_replace_consistency (tr : List (Bool × Nat × Nat × Nat × Nat))
    (v n b : Nat) (hb : 0 < b) (hdel : ∀ e ∈ tr, e.1 = true) :
    (∀ p ∈ (Indexer.Replace.runTrace ⟨[], none⟩ tr).store,
      ∀ q ∈ (Indexer.Replace.runTrace ⟨[], none⟩ tr).store, p.version = q.version) ∧
    (Indexer.Replace.runTrace ⟨[], none⟩ tr).store.Nodup ∧
    (∀ s : Indexer.Replace.St,
      Indexer.Replace.runPass s true v n b 1 = ⟨[], s.committed⟩) ∧
    Indexer.Replace.runPass (Indexer.Replace.runTrace ⟨[], none⟩ tr) true v n b
        (Indexer.Replace.passActs true v n b).length
      = ⟨Indexer.Replace.prefixPts v n, some v⟩ ∧
    (∀ s : Indexer.Replace.St,
      Indexer.Replace.runPass s false v n b (Indexer.Replace.passActs false v n b).length
        = ⟨s.store ++ Indexer.Replace.prefixPts v n, some v⟩) := by
  obtain ⟨v0, m0, hshape⟩ := runTrace_shape tr hdel ⟨[], none⟩ ⟨0, 0, rfl⟩
  refine ⟨?_, ?_, fun s => runPass_one s v n b, runPass_full _ v n b hb,
    fun s => runPass_full_noDel s v n b hb⟩
  · intro p hp q hq
    rw [hshape] at hp hq
    rw [prefixPts_version v0 m0 p hp, prefixPts_version v0 m0 q hq]
  · rw [hshape]
    exact prefixPts_nodup v0 m0

/-- C4 witness: a concrete history — a pass over version 0 interrupted right
after its effective delete, then a completed pass over version 1 with two
chunks, both deletes effective. -/
theorem C4_indexer_replace_consistency_witness :
    (∀ p ∈ (Indexer.Replace.runTrace ⟨[], none⟩
        [(true, 0, 2, 1, 1), (true, 1, 2, 1, 4)]).store,
      ∀ q ∈ (Indexer.Replace.runTrace ⟨[], none⟩
        [(true, 0, 2, 1, 1), (true, 1, 2, 1, 4)]).store, p.version = q.version) ∧
    (Indexer.Replace.runTrace ⟨[], none⟩
      [(true, 0, 2, 1, 1), (true, 1, 2, 1, 4)]).store.Nodup ∧
    (∀ s : Indexer.Replace.St,
      Indexer.Replace.runPass s true 1 2 1 1 = ⟨[], s.committed⟩) ∧
    Indexer.Replace.runPass (Indexer.Replace.runTrace ⟨[], none⟩
        [(true, 0, 2, 1, 1), (true, 1, 2, 1, 4)]) true 1 2 1
        (Indexer.Replace.passActs true 1 2 1).length
      = ⟨Indexer.Replace.prefixPts 1 2, some 1⟩ ∧
    (∀ s : Indexer.Replace.St,
      Indexer.Replace.runPass s false 1 2 1 (Indexer.Replace.passActs false 1 2 1).length
        = ⟨s.store ++ Indexer.Replace.prefixPts 1 2, some 1⟩) :=
  C4_indexer_replace_consistency [(true, 0, 2, 1, 1), (true, 1, 2, 1, 4)] 1 2 1
    (by decide) (by decide)

/-- C4 counterexample: in the rag-ingest pipeline, a run that upserts a
document's point and crashes before its DB commit leaves no state row, so
the next run sees no previous row, performs no delete, and upserts the same
chunk again — the store then holds two points for the same chunk of the same
version, refuting the claim that the store never holds duplicate points. -/
theorem C4_counterexample_ingest_duplicates :
    (Ingest.runIActs
        (Ingest.runIActs ⟨[], fun _ => none⟩
          ((Ingest.passActions (fun _ => "H") (fun _ => "t") (fun _ => ["t"])
            (fun _ => some [1]) (fun _ => 0) (fun _ => none)
            ⟨"/d/r.docx", "r.docx", "r", ".docx", [7], 1⟩).take 1))
        (Ingest.passActions (fun _ => "H") (fun _ => "t") (fun _ => ["t"])
          (fun _ => some [1]) (fun _ => 0)
          (Ingest.runIActs ⟨[], fun _ => none⟩
            ((Ingest.passActions (fun _ => "H") (fun _ => "t") (fun _ => ["t"])
              (fun _ => some [1]) (fun _ => 0) (fun _ => none)
              ⟨"/d/r.docx", "r.docx", "r", ".docx", [7], 1⟩).take 1)).db
          ⟨"/d/r.docx", "r.docx", "r", ".docx", [7], 1⟩)).store
      = [⟨0, [1], [("text", PVal.s "t"), ("source_file", PVal.s "r.docx"),
          ("chunk_index", PVal.n 0)]⟩,
         ⟨0, [1], [("text", PVal.s "t"), ("source_file", PVal.s "r.docx"),
          ("chunk_index", PVal.n 0)]⟩] ∧
    ¬ (Ingest.runIActs
        (Ingest.runIActs ⟨[], fun _ => none⟩
          ((Ingest.passActions (fun _ => "H") (fun _ => "t") (fun _ => ["t"])
            (fun _ => some [1]) (fun _ => 0) (fun _ => none)
            ⟨"/d/r.docx", "r.docx", "r", ".docx", [7], 1⟩).take 1))
        (Ingest.passActions (fun _ => "H") (fun _ => "t") (fun _ => ["t"])
          (fun _ => some [1]) (fun _ => 0)
          (Ingest.runIActs ⟨[], fun _ => none⟩
            ((Ingest.passActions (fun _ => "H") (fun _ => "t") (fun _ => ["t"])
              (fun _ => some [1]) (fun _ => 0) (fun _ => none)
              ⟨"/d/r.docx", "r.docx", "r", ".docx", [7], 1⟩).take 1)).db
          ⟨"/d/r.docx", "r.docx", "r", ".docx", [7], 1⟩)).store.Nodup := by
  exact ⟨by decide, by decide⟩

end RagService
